import Mathlib

/-!
# Verification of the FP-Growth frequent-pattern miner

A shallow embedding of `generate_fp_growth.py` and `generate_tree_node.py`.
The Python pointer graph (nodes with `parent`, `children`, `next-same-item`
references, trees with a route table) is modelled as an arena: a tree holds a
list of nodes, and every reference becomes an index into that list.  Index 0 is
the root.  Python dictionaries, which preserve insertion order, become
insertion-ordered association lists.  Items are natural numbers; a node's item
is `Option Nat`, `none` marking the root sentinel (Python `None`).
-/

namespace FPG

/-- Key type of the children / route dictionaries: an item, or the root
sentinel `none` (Python keys dictionaries by the raw item value). -/
abbrev Key := Option Nat

/-- `fp_node` from `generate_tree_node.py`: item, count, parent reference,
insertion-ordered children dictionary, and `next-same-item` route link
(`_adjacent_item`).  References are arena indices. -/
structure fp_node where
  item : Key
  count : Nat
  parent : Option Nat
  children : List (Key × Nat)
  adjacent_item : Option Nat
  deriving Repr, DecidableEq, Inhabited

/-- `fp_tree`: the node arena (index 0 is the root) and the route table, an
insertion-ordered map from item to the `Track (start, end)` pair of arena
indices. -/
structure fp_tree where
  nodes : List fp_node
  routes : List (Key × Nat × Nat)
  deriving Repr, DecidableEq

/-- The `fp_tree` constructor: a lone root node (item `None`, no parent,
no children) and an empty route table.  The root's Python count is `None`;
only its being the root matters, so it is stored as 0. -/
def fpTreeNew : fp_tree := ⟨[⟨none, 0, none, [], none⟩], []⟩

/-- Dereference an arena index. -/
def getNode (t : fp_tree) (i : Nat) : fp_node := t.nodes.getD i default

/-- Overwrite the node at an arena index. -/
def setNode (t : fp_tree) (i : Nat) (f : fp_node → fp_node) : fp_tree :=
  { t with nodes := t.nodes.set i (f (getNode t i)) }

/-- `fp_node.find`: look the item up in the children dictionary, `none` when
absent (Python catches the `KeyError`). -/
def find (t : fp_tree) (i : Nat) (x : Key) : Option Nat :=
  ((getNode t i).children.lookup x)

/-- Allocate a fresh `fp_node(tree, item, count)` at the end of the arena and
return its index. -/
def pushNode (t : fp_tree) (x : Key) (c : Nat) : fp_tree × Nat :=
  ({ t with nodes := t.nodes ++ [⟨x, c, none, [], none⟩] }, t.nodes.length)

/-- `fp_node.add_node`: if the parent has no child yet for the child's item,
record the child in the parent's children dictionary and set the child's
parent pointer; otherwise do nothing. -/
def add_node (t : fp_tree) (p c : Nat) : fp_tree :=
  let x := (getNode t c).item
  if ((getNode t p).children.lookup x).isSome then t
  else
    let t1 := setNode t p (fun n => { n with children := n.children ++ [(x, c)] })
    setNode t1 c (fun n => { n with parent := some p })

/-- Update the value of an existing key of an association list in place
(Python dictionary assignment keeps the key's position). -/
def routeUpdate : List (Key × Nat × Nat) → Key → Nat × Nat → List (Key × Nat × Nat)
  | [], _, _ => []
  | (y, v) :: rest, x, nv => if y = x then (y, nv) :: rest else (y, v) :: routeUpdate rest x nv

/-- `fp_tree.revise_route_table`: extend the item's route chain with the node
at `idx` — link the old chain end's `adjacent_item` to it and move the
`Track`'s end — or start a fresh chain when the item has no route entry yet
(the `KeyError` branch). -/
def revise_route_table (t : fp_tree) (idx : Nat) : fp_tree :=
  let x := (getNode t idx).item
  match t.routes.lookup x with
  | some (s, e) =>
    let t1 := setNode t e (fun n => { n with adjacent_item := some idx })
    { t1 with routes := routeUpdate t1.routes x (s, idx) }
  | none => { t with routes := t.routes ++ [(x, idx, idx)] }

/-- Follow `adjacent_item` links starting at `i`, with fuel (the Python loop
`while node: yield node; node = node.adjacent_item`). -/
def chainFrom (t : fp_tree) : Nat → Nat → List Nat
  | 0, _ => []
  | fuel + 1, i =>
    i :: (match (getNode t i).adjacent_item with
          | none => []
          | some j => chainFrom t fuel j)

/-- `fp_tree.get_nodes`: the indices of the item's route chain, from the
`Track`'s start; an absent route entry yields the empty sequence (the
`KeyError` branch returns). -/
def get_nodes (t : fp_tree) (x : Key) : List Nat :=
  match t.routes.lookup x with
  | none => []
  | some (s, _) => chainFrom t t.nodes.length s

/-- Walk `parent` links from `i` upward, collecting nodes until the root
(`while node and not node.root`), with fuel. -/
def pathUp (t : fp_tree) : Nat → Nat → List Nat
  | 0, _ => []
  | fuel + 1, i =>
    if (getNode t i).item = none then []
    else
      i :: (match (getNode t i).parent with
            | none => []
            | some p => pathUp t fuel p)

/-- `fp_tree.get_parent_paths`: one root-to-node path (reversed parent walk)
per node of the item, accumulated by prepending, so the result lists the
chain's paths in reverse chain order. -/
def get_parent_paths (t : fp_tree) (x : Key) : List (List Nat) :=
  (get_nodes t x).foldl (fun acc n => (pathUp t t.nodes.length n).reverse :: acc) []

/-- The creation step shared by `append_items` and the conditional-tree
construction: allocate the node, link it under the current pointer with
`add_node`, register it with `revise_route_table`, and return the new tree
with the new node's index. -/
def linkNewNode (t : fp_tree) (ptr : Nat) (k : Key) (c : Nat) : fp_tree × Nat :=
  let tn := pushNode t k c
  let t2 := add_node tn.1 ptr tn.2
  (revise_route_table t2 tn.2, tn.2)

/-- The walking loop of `fp_tree.append_items`, carrying the current pointer:
an existing child gets `increase_count`, a missing one is allocated, linked
with `add_node` and registered with `revise_route_table`. -/
def appendGo (t : fp_tree) (ptr : Nat) : List Nat → fp_tree
  | [] => t
  | x :: rest =>
    match find t ptr (some x) with
    | some nxt => appendGo (setNode t nxt (fun n => { n with count := n.count + 1 })) nxt rest
    | none =>
      let tn := linkNewNode t ptr (some x) 1
      appendGo tn.1 tn.2 rest

/-- `fp_tree.append_items`: insert one normalized transaction, walking from
the root. -/
def append_items (t : fp_tree) (items : List Nat) : fp_tree :=
  appendGo t 0 items

/-! ## The conditional-tree construction inside `conditional_db` -/

/-- Merge one prefix path into the conditional tree being built (`dst`),
walking from `dst`'s root.  Path elements are arena indices into the source
tree `src`; an existing child is reused, a missing one is created with the
source node's count when its item is the conditional item and 0 otherwise,
then linked and registered in `dst`'s route table. -/
def condInsertPath (src : fp_tree) (condItem : Key) : fp_tree → Nat → List Nat → fp_tree
  | dst, _, [] => dst
  | dst, ptr, i :: rest =>
    let nd := getNode src i
    match find dst ptr nd.item with
    | some nxt => condInsertPath src condItem dst nxt rest
    | none =>
      let cnt := if nd.item = condItem then nd.count else 0
      let tn := linkNewNode dst ptr nd.item cnt
      condInsertPath src condItem tn.1 tn.2 rest

/-- Build the conditional FP tree from the prefix paths: fold over the paths,
fixing the conditional item from the last node of the first path
(`cond_item = curr_path[-1].item` under `if cond_item is None`). -/
def buildCondTree (src : fp_tree) (paths : List (List Nat)) : fp_tree × Key :=
  paths.foldl
    (fun acc path =>
      match acc.2 with
      | some c => (condInsertPath src (some c) acc.1 0 path, some c)
      | none =>
        match path.getLast? with
        | some last =>
          let c := (getNode src last).item
          (condInsertPath src c acc.1 0 path, c)
        | none => acc)
    (fpTreeNew, none)

/-- Propagate one path's terminal count upward: read the terminal node's
count, then add it to every earlier node of the path
(`for node in reversed(curr_path[:-1]): node._count += current_count`). -/
def propagatePath (t : fp_tree) (path : List Nat) : fp_tree :=
  match path.getLast? with
  | none => t
  | some last =>
    let c := (getNode t last).count
    path.dropLast.reverse.foldl
      (fun acc i => setNode acc i (fun n => { n with count := n.count + c })) t

/-- The count-update pass over the freshly built conditional tree: re-fetch
the conditional item's parent paths once, then propagate each in turn.  A
`none` conditional item (no paths were merged) has no route entry, so the
pass does nothing. -/
def propagateCounts (t : fp_tree) (condItem : Key) : fp_tree :=
  let paths := get_parent_paths t condItem
  paths.foldl propagatePath t

/-! ## The recursive miner `conditional_db` -/

/-- The aggregate support of a route item: sum the counts over its chain
(`for n in nodes: curr_support += n.count`). -/
def supportOf (t : fp_tree) (ns : List Nat) : Nat :=
  ns.foldl (fun a i => a + (getNode t i).count) 0

/-- The conditional tree `conditional_db` derives for a route item: build it
from the item's prefix paths, then run the count-update pass. -/
def condTreeOf (tree : fp_tree) (x : Key) : fp_tree :=
  let ct := buildCondTree tree (get_parent_paths tree x)
  propagateCounts ct.1 ct.2

/-- One level of `conditional_db`, iterating over the pending route-table
items of `tree` with the recursive descent abstracted as `recurse`: compute
the item's aggregate support from its route chain, skip it when the support
misses `minsup` or the item is already in the retrieved suffix, otherwise
yield `(item :: retrieved, support)`, derive the conditional tree, and
descend into it. -/
def condLevel (minsup : Nat) (recurse : fp_tree → List Key → List (List Key × Nat))
    (tree : fp_tree) (retrieved : List Key) : List Key → List (List Key × Nat)
  | [] => []
  | x :: xs =>
    let tail := condLevel minsup recurse tree retrieved xs
    let currSupport := supportOf tree (get_nodes tree x)
    if currSupport < minsup ∨ x ∈ retrieved then tail
    else
      let freqItemSet := x :: retrieved
      (freqItemSet, currSupport) :: (recurse (condTreeOf tree x) freqItemSet ++ tail)

/-- `conditional_db(tree, retrieved_list)`: iterate the tree's route-table
items in insertion order and mine each.  The Python recursion is unbounded;
here each nesting level consumes one unit of fuel, and the termination
theorem shows that any fuel beyond the number of distinct route items never
changes the result. -/
def conditional_db (minsup : Nat) : Nat → fp_tree → List Key → List (List Key × Nat)
  | 0, _, _ => []
  | fuel + 1, tree, retrieved =>
    condLevel minsup (conditional_db minsup fuel) tree retrieved (tree.routes.map Prod.fst)

/-! ## The counting, filtering and normalization pipeline -/

/-- One `item_sets[each_column] += 1` step on the insertion-ordered counter
dictionary (`defaultdict(lambda: 0)`). -/
def bump (m : List (Nat × Nat)) (x : Nat) : List (Nat × Nat) :=
  match m.lookup x with
  | some c => m.map (fun p => if p.1 = x then (p.1, c + 1) else p)
  | none => m ++ [(x, 1)]

/-- The first pass of `generate_freq_item_sets`: count every item occurrence
over all transactions. -/
def countItems (txns : List (List Nat)) : List (Nat × Nat) :=
  txns.foldl (fun m t => t.foldl bump m) []

/-- The removal loop of `order_transactions`, with Python's
iterate-while-mutating semantics: the iterator index advances by one each
step over the list being mutated, and `list.remove` erases the first
occurrence of the value.  The loop runs at most as many steps as the
original length (the index grows by one per step while the length never
grows), so that much fuel reproduces it exactly: when the fuel runs out the
index has already reached the original length, which bounds the current
length, so the loop would stop there anyway. -/
def removeGo (m : List (Nat × Nat)) : Nat → List Nat → Nat → List Nat
  | 0, l, _ => l
  | fuel + 1, l, i =>
    if h : i < l.length then
      let x := l.get ⟨i, h⟩
      if (m.lookup x).isSome then removeGo m fuel l (i + 1)
      else removeGo m fuel (l.erase x) (i + 1)
    else l

/-- `for each_element in each_transaction: if ... each_transaction.remove`. -/
def removeLoop (m : List (Nat × Nat)) (l : List Nat) : List Nat :=
  removeGo m l.length l 0

/-- The key prepass of `sorted(..., key=lambda v: item_sets[v], ...)`: CPython
computes the keys once, in list order, before sorting; on the
`defaultdict`, each missing key is thereby inserted with value 0. -/
def sortKeyPass (l : List Nat) (m : List (Nat × Nat)) : List (Nat × Nat) :=
  l.foldl (fun acc x => if (acc.lookup x).isSome then acc else acc ++ [(x, 0)]) m

/-- The sort key: the item's stored count (after the prepass every item of
the list has an entry). -/
def keyOf (m : List (Nat × Nat)) (x : Nat) : Nat := (m.lookup x).getD 0

/-- `order_transactions`: run the buggy removal loop, then the stable
descending sort by global count; returns the sorted transaction together with
the (possibly mutated) shared counter dictionary. -/
def order_transactions (m : List (Nat × Nat)) (txn : List Nat) :
    List Nat × List (Nat × Nat) :=
  let l := removeLoop m txn
  let m2 := sortKeyPass l m
  (l.insertionSort (fun a b => keyOf m2 b ≤ keyOf m2 a), m2)

/-- The filtering pass over the counter dictionary: entries meeting the
minimum support survive in place, the rest are collected and deleted. -/
def filteredCounts (txns : List (List Nat)) (minsup : Nat) : List (Nat × Nat) :=
  (countItems txns).filter (fun p => minsup ≤ p.2)

/-- `list(map(order_transactions, input_transactions))`: normalize every
transaction in order, threading the shared counter dictionary (which
`order_transactions` may mutate) through the calls. -/
def normalizeAll (txns : List (List Nat)) (m : List (Nat × Nat)) :
    List (List Nat) × List (Nat × Nat) :=
  txns.foldl
    (fun acc t =>
      let r := order_transactions acc.2 t
      (acc.1 ++ [r.1], r.2))
    ([], m)

/-- `generate_freq_item_sets`: count, filter by minimum support, normalize
every transaction, build the first FP tree, and mine it.  The mining fuel is
one more than the route-table size, which the termination analysis shows is
never exhausted. -/
def generate_freq_item_sets (txns : List (List Nat)) (minsup : Nat) :
    List (List Key × Nat) :=
  let norm := normalizeAll txns (filteredCounts txns minsup)
  let tree := norm.1.foldl append_items fpTreeNew
  conditional_db minsup (tree.routes.length + 1) tree []

/-! ## Reference definitions (spec side) -/

/-- Brute-force counting reference: the support of an item-set over the input
transactions is the number of transactions containing all of its items. -/
def bruteSupport (txns : List (List Nat)) (s : List Nat) : Nat :=
  (txns.filter (fun t => s.all (fun x => x ∈ t))).length

/-- The non-root arena indices whose node carries the item key `x`, in
increasing index order — which is creation order, since nodes are only ever
appended to the arena. -/
def itemsAt (t : fp_tree) (x : Key) : List Nat :=
  (List.range t.nodes.length).filter (fun i => decide (0 < i ∧ (getNode t i).item = x))

/-- Sum of the node counts over a list of arena indices. -/
def countsSum (t : fp_tree) (l : List Nat) : Nat :=
  (l.map (fun i => (getNode t i).count)).sum

/-- Chain well-formedness: the arena has a root with the sentinel item and
only the root carries it; route-table keys are distinct; every route entry's
chain, followed by `adjacent_item` links from its start, enumerates exactly
that item's nodes in creation order, ends at the entry's recorded end whose
link is clear; and every non-root node's item has a route entry. -/
def chainsWF (t : fp_tree) : Prop :=
  1 ≤ t.nodes.length ∧
  (getNode t 0).item = none ∧
  (∀ i ∈ List.range t.nodes.length, 1 ≤ i → (getNode t i).item ≠ none) ∧
  (t.routes.map Prod.fst).Nodup ∧
  (∀ r ∈ t.routes, chainFrom t t.nodes.length r.2.1 = itemsAt t r.1 ∧
      (itemsAt t r.1).getLast? = some r.2.2 ∧
      (getNode t r.2.2).adjacent_item = none) ∧
  (∀ i ∈ List.range t.nodes.length, 1 ≤ i →
      (getNode t i).item ∈ t.routes.map Prod.fst)

/-- Link well-formedness: children entries point strictly forward to in-range
nodes carrying the recorded item with the parent pointer back; children keys
are distinct; and every non-root node hangs off a smaller-index parent that
lists it among its children. -/
def linksWF (t : fp_tree) : Prop :=
  (∀ i ∈ List.range t.nodes.length, ∀ p ∈ (getNode t i).children,
      i < p.2 ∧ p.2 < t.nodes.length ∧ (getNode t p.2).item = p.1 ∧
      (getNode t p.2).parent = some i) ∧
  (∀ i ∈ List.range t.nodes.length, ((getNode t i).children.map Prod.fst).Nodup) ∧
  (∀ i ∈ List.range t.nodes.length, 1 ≤ i →
      ∃ p ∈ List.range i, (getNode t i).parent = some p ∧
        ((getNode t i).item, i) ∈ (getNode t p).children)

/-- Well-formedness of a tree state, as established for every tree the
algorithm builds (the root tree via `append_items`, conditional trees via
the merge-and-propagate construction). -/
def WF (t : fp_tree) : Prop := chainsWF t ∧ linksWF t

/-- The termination measure of the miner: the number of distinct route-table
items not yet in the retrieved suffix. -/
def measureT (t : fp_tree) (suffix : List Key) : Nat :=
  ((t.routes.map Prod.fst).toFinset \ suffix.toFinset).card

/-! ## Theorems -/

theorem routes_setNode (t : fp_tree) (i : Nat) (f : fp_node → fp_node) :
    (setNode t i f).routes = t.routes := rfl

theorem length_setNode (t : fp_tree) (i : Nat) (f : fp_node → fp_node) :
    (setNode t i f).nodes.length = t.nodes.length := by
  simp [setNode]

theorem getNode_setNode_self (t : fp_tree) (i : Nat) (f : fp_node → fp_node)
    (h : i < t.nodes.length) :
    getNode (setNode t i f) i = f (getNode t i) := by
  simp [getNode, setNode, List.getD_eq_getElem?_getD, List.getElem?_set_self, h,
    List.getElem?_eq_getElem]

theorem getNode_setNode_ne (t : fp_tree) (i j : Nat) (f : fp_node → fp_node)
    (h : j ≠ i) :
    getNode (setNode t i f) j = getNode t j := by
  simp [getNode, setNode, List.getD_eq_getElem?_getD, List.getElem?_set_ne (Ne.symm h)]

theorem lookup_none_iff {α β : Type} [BEq α] [LawfulBEq α] (l : List (α × β)) (x : α) :
    l.lookup x = none ↔ x ∉ l.map Prod.fst := by
  induction l with
  | nil => simp
  | cons hd tl ih =>
    by_cases hx : x = hd.1
    · simp [List.lookup, hx]
    · have hbeq : (x == hd.1) = false := beq_eq_false_iff_ne.mpr hx
      simp only [List.lookup, hbeq, List.map_cons, List.mem_cons]
      rw [ih]
      tauto

/-- C1.  The mining pipeline is NOT complete against the brute-force counting
reference: on the transactions `[[0,1],[1,0]]` with minimum support 2, the
item-set `{0,1}` has brute-force support 2 (it is contained in both
transactions), yet no pair yielded by `generate_freq_item_sets` mentions both
items.  The cause is the per-transaction stable sort: the two equally
frequent items are ordered inconsistently across the two transactions, so the
occurrences of `{0,1}` split over two tree branches and neither conditional
tree reassembles them. -/
theorem generate_omits_frequent_pair :
    2 ≤ bruteSupport [[0, 1], [1, 0]] [0, 1] ∧
    ∀ p ∈ generate_freq_item_sets [[0, 1], [1, 0]] 2,
      ¬ (some 0 ∈ p.1 ∧ some 1 ∈ p.1) := by decide

/-- C2.  Support monotonicity fails: on the single transaction `[1,0,1]`
(item 1 occurring twice) with minimum support 1, the miner yields the subset
`{0}` with support 1 and the superset `{0,1}` with support 2, because the
duplicated item contributes two chained tree nodes whose counts both flow
into the conditional tree of item 0. -/
theorem generate_monotonicity_violation :
    ([some 0], 1) ∈ generate_freq_item_sets [[1, 0, 1]] 1 ∧
    ([some 1, some 0], 2) ∈ generate_freq_item_sets [[1, 0, 1]] 1 ∧
    [some 0] ⊆ [some 1, some 0] ∧ ¬ 2 ≤ 1 := by decide

/-- C3.  `order_transactions` does NOT remove every item absent from the
frequency mapping: removing while iterating skips the element that slides
into the removed element's slot, so on the transaction `[0,1]` with an empty
frequency mapping the returned sequence still contains item 1. -/
theorem order_transactions_keeps_absent_item :
    ([] : List (Nat × Nat)).lookup 1 = none ∧
    1 ∈ (order_transactions [] [0, 1]).1 := by decide

/-- C4.  `order_transactions` is NOT free of side effects on the shared
frequency mapping: sorting the surviving absent item looks its count up in
the `defaultdict`, which inserts the missing key with count 0 — the empty
mapping comes back as `[(1, 0)]`. -/
theorem order_transactions_mutates_mapping :
    (order_transactions [] [0, 1]).2 = [(1, 0)] ∧
    ((order_transactions [] [0, 1]).2 = ([] : List (Nat × Nat)) → False) := by decide

/-- C5 counterexample.  The conditional tree built for an item DOES contain
that item: each prefix path ends at a node of the item itself and that node
is merged into the conditional tree.  For the tree of the single transaction
`[0,1]`, the conditional tree for item 1 has a route-table entry for item 1,
and its item universe equals the parent tree's universe rather than strictly
shrinking. -/
theorem cond_tree_contains_its_item :
    some 1 ∈ ((buildCondTree (append_items fpTreeNew [0, 1])
        (get_parent_paths (append_items fpTreeNew [0, 1]) (some 1))).1.routes.map
          Prod.fst) ∧
    ((buildCondTree (append_items fpTreeNew [0, 1])
        (get_parent_paths (append_items fpTreeNew [0, 1]) (some 1))).1.routes.map
          Prod.fst)
      = (append_items fpTreeNew [0, 1]).routes.map Prod.fst := by decide

/-- C6 counterexample.  A minimum support exceeding the number of
transactions does NOT force an empty result when a transaction repeats an
item: the single transaction `[0,0]` yields `({0}, 2)` at minimum support 2,
because occurrences rather than transactions are counted. -/
theorem generate_nonempty_beyond_txn_count :
    ([[0, 0]] : List (List Nat)).length < 2 ∧
    generate_freq_item_sets [[0, 0]] 2 = [([some 0], 2)] := by decide

/-- C9.  Lookups of an item without a route-table entry are total:
`get_nodes` yields the empty sequence and `get_parent_paths` the empty
collection of paths (the `KeyError` is caught, never propagated). -/
theorem absent_item_lookups_empty (t : fp_tree) (x : Key)
    (h : t.routes.lookup x = none) :
    get_nodes t x = [] ∧ get_parent_paths t x = [] := by
  have h1 : get_nodes t x = [] := by unfold get_nodes; rw [h]
  exact ⟨h1, by unfold get_parent_paths; rw [h1]; rfl⟩

/-- Witness for C9 at a concrete input: the fresh tree has no route entry for
item 5. -/
theorem absent_item_lookups_empty_witness :
    get_nodes fpTreeNew (some 5) = [] ∧ get_parent_paths fpTreeNew (some 5) = [] :=
  absent_item_lookups_empty fpTreeNew (some 5) (by decide)

/-- C10.  `add_node` preserves the one-child-per-item invariant: when the
parent already has a child for the child's item, the call changes nothing at
all (in particular neither the children mapping nor the child's parent);
otherwise it appends the child under its item and sets its parent pointer,
leaving every other node's children untouched.  Consequently a children
mapping with distinct keys keeps distinct keys across any `add_node` call. -/
theorem add_node_spec (t : fp_tree) (p c : Nat)
    (hp : p < t.nodes.length) (hc : c < t.nodes.length) :
    (((getNode t p).children.lookup (getNode t c).item).isSome = true →
        add_node t p c = t) ∧
    ((getNode t p).children.lookup (getNode t c).item = none →
        (getNode (add_node t p c) p).children
            = (getNode t p).children ++ [((getNode t c).item, c)] ∧
        (getNode (add_node t p c) c).parent = some p ∧
        ∀ i, i ≠ p → (getNode (add_node t p c) i).children = (getNode t i).children) ∧
    ∀ i, ((getNode t i).children.map Prod.fst).Nodup →
        ((getNode (add_node t p c) i).children.map Prod.fst).Nodup := by
  by_cases hs : ((getNode t p).children.lookup (getNode t c).item).isSome = true
  · refine ⟨fun _ => ?_, fun hn => ?_, fun i hi => ?_⟩
    · simp only [add_node, hs, if_true]
    · rw [hn] at hs; simp at hs
    · simp only [add_node, hs, if_true]; exact hi
  · have hnone : (getNode t p).children.lookup (getNode t c).item = none := by
      cases h : (getNode t p).children.lookup (getNode t c).item with
      | none => rfl
      | some v => rw [h] at hs; simp at hs
    have hchild :
        (getNode (add_node t p c) p).children
          = (getNode t p).children ++ [((getNode t c).item, c)] := by
      simp only [add_node, hs, Bool.false_eq_true, if_false]
      by_cases hpc : c = p
      · subst hpc
        rw [getNode_setNode_self _ _ _ (by simpa [length_setNode] using hc)]
        rw [getNode_setNode_self _ _ _ hp]
      · rw [getNode_setNode_ne _ _ _ _ (Ne.symm hpc)]
        rw [getNode_setNode_self _ _ _ hp]
    have hothers : ∀ i, i ≠ p →
        (getNode (add_node t p c) i).children = (getNode t i).children := by
      intro i hi
      simp only [add_node, hs, Bool.false_eq_true, if_false]
      by_cases hic : i = c
      · subst hic
        rw [getNode_setNode_self _ _ _ (by simpa [length_setNode] using hc)]
        rw [getNode_setNode_ne _ _ _ _ hi]
      · rw [getNode_setNode_ne _ _ _ _ hic, getNode_setNode_ne _ _ _ _ hi]
    refine ⟨fun habs => ?_, fun _ => ⟨hchild, ?_, hothers⟩, fun i hi => ?_⟩
    · rw [hnone] at habs; simp at habs
    · simp only [add_node, hs, Bool.false_eq_true, if_false]
      rw [getNode_setNode_self _ _ _ (by simpa [length_setNode] using hc)]
    · by_cases hip : i = p
      · subst hip
        rw [hchild]
        have hx : (getNode t c).item ∉ (getNode t i).children.map Prod.fst :=
          (lookup_none_iff _ _).mp hnone
        simp only [List.map_append, List.map_cons, List.map_nil]
        rw [List.nodup_append]
        exact ⟨hi, List.nodup_singleton _, by simpa using hx⟩
      · rw [hothers i hip]; exact hi

/-- Witness for C10: in the two-node tree with an unlinked non-root node,
`add_node 0 1` records the child under its item and sets its parent. -/
theorem add_node_spec_witness :
    (getNode (add_node ⟨[⟨none, 0, none, [], none⟩, ⟨some 7, 1, none, [], none⟩], []⟩ 0 1) 0).children
        = [(some 7, 1)] ∧
    (getNode (add_node ⟨[⟨none, 0, none, [], none⟩, ⟨some 7, 1, none, [], none⟩], []⟩ 0 1) 1).parent
        = some 0 := by
  have h := (add_node_spec ⟨[⟨none, 0, none, [], none⟩, ⟨some 7, 1, none, [], none⟩], []⟩ 0 1
    (by decide) (by decide)).2.1 (by decide)
  exact ⟨h.1, h.2.1⟩

/-! ## Arena access lemmas -/

theorem getNode_oob (t : fp_tree) (i : Nat) (h : t.nodes.length ≤ i) :
    getNode t i = default := by
  simp [getNode, List.getD_eq_getElem?_getD, List.getElem?_eq_none h]

theorem length_push (t : fp_tree) (x : Key) (c : Nat) :
    (pushNode t x c).1.nodes.length = t.nodes.length + 1 := by
  simp [pushNode]

theorem routes_push (t : fp_tree) (x : Key) (c : Nat) :
    (pushNode t x c).1.routes = t.routes := rfl

theorem idx_push (t : fp_tree) (x : Key) (c : Nat) :
    (pushNode t x c).2 = t.nodes.length := rfl

theorem getNode_push_lt (t : fp_tree) (x : Key) (c : Nat) (i : Nat)
    (h : i < t.nodes.length) :
    getNode (pushNode t x c).1 i = getNode t i := by
  simp [getNode, pushNode, List.getD_eq_getElem?_getD, List.getElem?_append_left h]

theorem getNode_push_self (t : fp_tree) (x : Key) (c : Nat) :
    getNode (pushNode t x c).1 t.nodes.length = ⟨x, c, none, [], none⟩ := by
  simp [getNode, pushNode, List.getD_eq_getElem?_getD, List.getElem?_concat_length]

/-! ## Chain lemmas -/

theorem chainFrom_congr (t t' : fp_tree) (fuel : Nat) :
    ∀ s, (∀ i ∈ chainFrom t fuel s,
        (getNode t' i).adjacent_item = (getNode t i).adjacent_item) →
      chainFrom t' fuel s = chainFrom t fuel s := by
  induction fuel with
  | zero => intro s _; rfl
  | succ fuel ih =>
    intro s h
    have hs : s ∈ chainFrom t (fuel + 1) s := by rw [chainFrom]; exact List.mem_cons_self _ _
    rw [chainFrom, chainFrom, h s hs]
    cases hadj : (getNode t s).adjacent_item with
    | none => rfl
    | some j =>
      simp only [List.cons.injEq, true_and]
      apply ih
      intro i hi
      apply h
      rw [chainFrom, hadj]
      exact List.mem_cons_of_mem _ hi

theorem chainFrom_fuel_succ (t : fp_tree) :
    ∀ fuel s, (chainFrom t fuel s).length < fuel →
      chainFrom t (fuel + 1) s = chainFrom t fuel s := by
  intro fuel
  induction fuel with
  | zero => intro s h; simp at h
  | succ fuel ih =>
    intro s h
    rw [chainFrom, chainFrom]
    cases hadj : (getNode t s).adjacent_item with
    | none => rfl
    | some j =>
      simp only [List.cons.injEq, true_and]
      apply ih
      rw [chainFrom, hadj] at h
      simpa using Nat.lt_of_succ_lt_succ h

theorem chainFrom_fuel_add (t : fp_tree) (fuel s : Nat)
    (h : (chainFrom t fuel s).length < fuel) :
    ∀ k, chainFrom t (fuel + k) s = chainFrom t fuel s := by
  intro k
  induction k with
  | zero => rfl
  | succ k ih =>
    have : fuel + (k + 1) = (fuel + k) + 1 := rfl
    rw [this, chainFrom_fuel_succ t (fuel + k) s (by rw [ih]; omega), ih]

/-- Extending a terminated chain: when `t'` agrees with `t` on the links of a
chain except at its end `e`, where it now points to a fresh node `n'` with a
clear link, the chain in `t'` is the old chain with `n'` appended. -/
theorem chainFrom_extend (t t' : fp_tree) (n' : Nat) :
    ∀ fuel (l : List Nat) (s e : Nat),
      chainFrom t fuel s = l → l.Nodup → l.getLast? = some e →
      (∀ i ∈ l, i ≠ e → (getNode t' i).adjacent_item = (getNode t i).adjacent_item) →
      (getNode t' e).adjacent_item = some n' →
      (getNode t' n').adjacent_item = none →
      l.length < fuel →
      chainFrom t' (fuel + 1) s = l ++ [n'] := by
  intro fuel
  induction fuel with
  | zero => intro l s e _ _ _ _ _ _ hlt; omega
  | succ f ih =>
    intro l s e hch hnd hlast hsame he hn' hlt
    rw [chainFrom] at hch
    cases hadj : (getNode t s).adjacent_item with
    | none =>
      rw [hadj] at hch
      have hl : l = [s] := hch.symm
      subst hl
      have hes : e = s := by simp at hlast; omega
      subst hes
      rw [chainFrom, he]
      show e :: chainFrom t' (f + 1) n' = [e] ++ [n']
      rw [chainFrom, hn']
      rfl
    | some j =>
      rw [hadj] at hch
      have hl : l = s :: chainFrom t f j := hch.symm
      rcases Nat.eq_zero_or_pos f with hf | hf
      · subst hf
        rw [hl] at hlt
        simp [chainFrom] at hlt
      · obtain ⟨g, hg⟩ := Nat.exists_eq_succ_of_ne_zero (Nat.pos_iff_ne_zero.mp hf)
        obtain ⟨tl, htl⟩ : ∃ tl, chainFrom t f j = j :: tl := by
          subst hg
          rw [chainFrom]
          exact ⟨_, rfl⟩
        have hlast2 : (chainFrom t f j).getLast? = some e := by
          rw [hl, htl, List.getLast?_cons_cons] at hlast
          rw [htl]
          exact hlast
        have hmem : e ∈ chainFrom t f j := by
          rw [htl] at hlast2 ⊢
          exact List.mem_of_mem_getLast? hlast2
        have hse : s ≠ e := by
          rw [hl] at hnd
          intro hse2
          exact (List.nodup_cons.mp hnd).1 (hse2 ▸ hmem)
        have hstep : (getNode t' s).adjacent_item = some j := by
          rw [hsame s (by rw [hl]; exact List.mem_cons_self _ _) hse, hadj]
        rw [chainFrom, hstep]
        show s :: chainFrom t' (f + 1) j = l ++ [n']
        have hsub := ih (chainFrom t f j) j e rfl
          (by rw [hl] at hnd; exact (List.nodup_cons.mp hnd).2)
          hlast2
          (fun i hi hie => hsame i (by rw [hl]; exact List.mem_cons_of_mem _ hi) hie)
          he hn'
          (by rw [hl] at hlt; simpa using Nat.lt_of_succ_lt_succ hlt)
        rw [hsub, hl]
        rfl

theorem mem_itemsAt (t : fp_tree) (x : Key) (i : Nat) :
    i ∈ itemsAt t x ↔ i < t.nodes.length ∧ 0 < i ∧ (getNode t i).item = x := by
  simp [itemsAt, List.mem_filter, List.mem_range, decide_eq_true_eq, and_assoc]

theorem itemsAt_pairwise (t : fp_tree) (x : Key) :
    (itemsAt t x).Pairwise (· < ·) :=
  (List.pairwise_lt_range _).filter _

theorem itemsAt_nodup (t : fp_tree) (x : Key) : (itemsAt t x).Nodup :=
  (itemsAt_pairwise t x).imp Nat.ne_of_lt

theorem itemsAt_length_lt (t : fp_tree) (x : Key) (h : 1 ≤ t.nodes.length) :
    (itemsAt t x).length < t.nodes.length := by
  have h0 : (0 : Nat) ∈ List.range t.nodes.length := List.mem_range.mpr h
  calc (itemsAt t x).length
      < (List.range t.nodes.length).length := by
        apply List.length_filter_lt_length_iff_exists.mpr
        exact ⟨0, h0, by simp⟩
    _ = t.nodes.length := List.length_range _

theorem itemsAt_congr (t t' : fp_tree) (hlen : t'.nodes.length = t.nodes.length)
    (h : ∀ i, i < t.nodes.length → (getNode t' i).item = (getNode t i).item)
    (x : Key) :
    itemsAt t' x = itemsAt t x := by
  unfold itemsAt
  rw [hlen]
  apply List.filter_congr
  intro i hi
  rw [List.mem_range] at hi
  rw [h i hi]

theorem itemsAt_push (t : fp_tree) (x y : Key) (c : Nat) (h : 1 ≤ t.nodes.length) :
    itemsAt (pushNode t x c).1 y
      = itemsAt t y ++ if y = x then [t.nodes.length] else [] := by
  unfold itemsAt
  rw [length_push, List.range_succ, List.filter_append]
  congr 1
  · apply List.filter_congr
    intro i hi
    rw [List.mem_range] at hi
    rw [getNode_push_lt _ _ _ _ hi]
  · rw [List.filter_singleton]
    have h0 : 0 < t.nodes.length := h
    by_cases hyx : y = x
    · simp [getNode_push_self, hyx, h0]
    · simp [getNode_push_self, hyx, Ne.symm hyx]

/-! ## Association-list lemmas -/

theorem routeUpdate_keys (l : List (Key × Nat × Nat)) (x : Key) (v : Nat × Nat) :
    (routeUpdate l x v).map Prod.fst = l.map Prod.fst := by
  induction l with
  | nil => rfl
  | cons hd tl ih =>
    rw [routeUpdate]
    rcases hd with ⟨y, w⟩
    by_cases hxy : y = x
    · simp [hxy]
    · simp [hxy, ih]

theorem mem_routeUpdate (l : List (Key × Nat × Nat)) (x : Key) (v : Nat × Nat)
    (hnd : (l.map Prod.fst).Nodup) (r : Key × Nat × Nat)
    (h : r ∈ routeUpdate l x v) :
    r = (x, v) ∨ (r ∈ l ∧ r.1 ≠ x) := by
  induction l with
  | nil => simp [routeUpdate] at h
  | cons hd tl ih =>
    rcases hd with ⟨y, w⟩
    rw [routeUpdate] at h
    rw [List.map_cons, List.nodup_cons] at hnd
    by_cases hxy : y = x
    · rw [if_pos hxy] at h
      rcases List.mem_cons.mp h with h1 | h1
      · left; rw [h1, hxy]
      · right
        refine ⟨List.mem_cons_of_mem _ h1, ?_⟩
        intro hrx
        apply hnd.1
        rw [hxy, ← hrx]
        exact List.mem_map.mpr ⟨r, h1, rfl⟩
    · rw [if_neg hxy] at h
      rcases List.mem_cons.mp h with h1 | h1
      · right; exact ⟨by rw [h1]; exact List.mem_cons_self _ _, by rw [h1]; exact hxy⟩
      · rcases ih hnd.2 h1 with h2 | h2
        · left; exact h2
        · right; exact ⟨List.mem_cons_of_mem _ h2.1, h2.2⟩

theorem mem_of_lookup {α β : Type} [BEq α] [LawfulBEq α] (l : List (α × β)) (x : α)
    (v : β) (h : l.lookup x = some v) : (x, v) ∈ l := by
  induction l with
  | nil => simp [List.lookup] at h
  | cons hd tl ih =>
    rw [List.lookup] at h
    by_cases hxy : x == hd.1
    · rw [hxy] at h
      simp only [Option.some.injEq] at h
      have hx1 : x = hd.1 := eq_of_beq hxy
      exact List.mem_cons.mpr (Or.inl (by rw [hx1, ← h]))
    · rw [Bool.not_eq_true] at hxy
      rw [hxy] at h
      exact List.mem_cons_of_mem _ (ih h)

theorem keys_append {α β : Type} (l : List (α × β)) (x : α) (v : β) :
    (l ++ [(x, v)]).map Prod.fst = l.map Prod.fst ++ [x] := by
  simp

theorem setNode_oob (t : fp_tree) (i : Nat) (f : fp_node → fp_node)
    (h : t.nodes.length ≤ i) : (setNode t i f).nodes = t.nodes := by
  simp [setNode, List.set_eq_of_length_le h]

theorem getNode_setNode (t : fp_tree) (i : Nat) (f : fp_node → fp_node) (j : Nat) :
    getNode (setNode t i f) j
      = if j = i ∧ j < t.nodes.length then f (getNode t j) else getNode t j := by
  by_cases hji : j = i
  · subst hji
    by_cases hj : j < t.nodes.length
    · rw [if_pos ⟨rfl, hj⟩, getNode_setNode_self _ _ _ hj]
    · rw [if_neg (fun hc => hj hc.2)]
      unfold getNode
      rw [setNode_oob _ _ _ (Nat.le_of_not_lt hj)]
  · rw [if_neg (fun hc => hji hc.1), getNode_setNode_ne _ _ _ _ hji]

/-! ## Sum lemmas -/

theorem foldl_add_counts (t : fp_tree) (l : List Nat) :
    ∀ a : Nat, l.foldl (fun a i => a + (getNode t i).count) a = a + countsSum t l := by
  induction l with
  | nil => intro a; simp [countsSum]
  | cons hd tl ih =>
    intro a
    rw [List.foldl_cons, ih]
    simp [countsSum]
    omega

theorem supportOf_eq_countsSum (t : fp_tree) (l : List Nat) :
    supportOf t l = countsSum t l := by
  rw [supportOf, foldl_add_counts, Nat.zero_add]

theorem countsSum_congr (t t' : fp_tree) (l : List Nat)
    (h : ∀ i ∈ l, (getNode t' i).count = (getNode t i).count) :
    countsSum t' l = countsSum t l := by
  unfold countsSum
  congr 1
  exact List.map_congr_left h

theorem countsSum_update (t : fp_tree) (l : List Nat) (j : Nat) (c : Nat)
    (hnd : l.Nodup) (hj : j ∈ l) (hjlen : j < t.nodes.length) :
    countsSum (setNode t j (fun n => { n with count := n.count + c })) l
      = countsSum t l + c := by
  induction l with
  | nil => simp at hj
  | cons hd tl ih =>
    rw [List.nodup_cons] at hnd
    rcases List.mem_cons.mp hj with h1 | h1
    · subst h1
      unfold countsSum
      rw [List.map_cons, List.map_cons, List.sum_cons, List.sum_cons]
      rw [getNode_setNode_self _ _ _ hjlen]
      have hcg : ∀ i ∈ tl,
          (getNode (setNode t j fun n => { n with count := n.count + c }) i).count
            = (getNode t i).count := by
        intro i hi
        rw [getNode_setNode_ne _ _ _ _ (by intro he; exact hnd.1 (by rw [← he]; exact hi))]
      rw [List.map_congr_left hcg]
      dsimp only
      omega
    · unfold countsSum
      rw [List.map_cons, List.map_cons, List.sum_cons, List.sum_cons]
      rw [getNode_setNode_ne _ _ _ _ (by intro he; exact hnd.1 (by rw [he]; exact h1))]
      have hih := ih hnd.2 h1
      unfold countsSum at hih
      omega

/-! ## Skeleton lemmas: which fields each operation can touch -/

theorem add_node_none (t : fp_tree) (p c : Nat)
    (hn : (getNode t p).children.lookup (getNode t c).item = none) :
    add_node t p c
      = setNode (setNode t p
          (fun nn => { nn with children := nn.children ++ [((getNode t c).item, c)] }))
          c (fun nn => { nn with parent := some p }) := by
  rw [add_node, hn]
  rfl

theorem add_node_skeleton (t : fp_tree) (p c : Nat) :
    (add_node t p c).nodes.length = t.nodes.length ∧
    (add_node t p c).routes = t.routes ∧
    ∀ i, (getNode (add_node t p c) i).item = (getNode t i).item ∧
         (getNode (add_node t p c) i).count = (getNode t i).count ∧
         (getNode (add_node t p c) i).adjacent_item = (getNode t i).adjacent_item := by
  rw [add_node]
  by_cases hs : ((getNode t p).children.lookup (getNode t c).item).isSome = true
  · rw [if_pos hs]
    exact ⟨rfl, rfl, fun i => ⟨rfl, rfl, rfl⟩⟩
  · rw [if_neg hs]
    refine ⟨by rw [length_setNode, length_setNode], by rw [routes_setNode, routes_setNode], ?_⟩
    intro i
    rw [getNode_setNode, getNode_setNode]
    split_ifs <;> exact ⟨rfl, rfl, rfl⟩

theorem revise_skeleton (t : fp_tree) (idx : Nat) :
    (revise_route_table t idx).nodes.length = t.nodes.length ∧
    ∀ i, (getNode (revise_route_table t idx) i).item = (getNode t i).item ∧
         (getNode (revise_route_table t idx) i).count = (getNode t i).count ∧
         (getNode (revise_route_table t idx) i).children = (getNode t i).children ∧
         (getNode (revise_route_table t idx) i).parent = (getNode t i).parent := by
  rw [revise_route_table]
  cases hl : t.routes.lookup (getNode t idx).item with
  | none => exact ⟨rfl, fun i => ⟨rfl, rfl, rfl, rfl⟩⟩
  | some se =>
    rcases se with ⟨s, e⟩
    constructor
    · show (setNode t e (fun n => { n with adjacent_item := some idx })).nodes.length
        = t.nodes.length
      exact length_setNode t e _
    · intro i
      show (getNode (setNode t e (fun n => { n with adjacent_item := some idx })) i).item
            = (getNode t i).item ∧
          (getNode (setNode t e (fun n => { n with adjacent_item := some idx })) i).count
            = (getNode t i).count ∧
          (getNode (setNode t e (fun n => { n with adjacent_item := some idx })) i).children
            = (getNode t i).children ∧
          (getNode (setNode t e (fun n => { n with adjacent_item := some idx })) i).parent
            = (getNode t i).parent
      rw [getNode_setNode]
      split_ifs <;> exact ⟨rfl, rfl, rfl, rfl⟩

theorem revise_routes_some (t : fp_tree) (idx s e : Nat)
    (hl : t.routes.lookup (getNode t idx).item = some (s, e)) :
    (revise_route_table t idx).routes
      = routeUpdate t.routes (getNode t idx).item (s, idx) := by
  rw [revise_route_table, hl]
  rfl

theorem revise_routes_none (t : fp_tree) (idx : Nat)
    (hl : t.routes.lookup (getNode t idx).item = none) :
    (revise_route_table t idx).routes = t.routes ++ [((getNode t idx).item, idx, idx)] := by
  rw [revise_route_table, hl]

theorem revise_adj_some (t : fp_tree) (idx s e : Nat)
    (hl : t.routes.lookup (getNode t idx).item = some (s, e)) :
    ∀ i, (getNode (revise_route_table t idx) i).adjacent_item
      = if i = e ∧ i < t.nodes.length then some idx else (getNode t i).adjacent_item := by
  intro i
  rw [revise_route_table, hl]
  show (getNode (setNode t e (fun n => { n with adjacent_item := some idx })) i).adjacent_item
    = _
  rw [getNode_setNode]
  split_ifs with h1
  · rfl
  · rfl

theorem revise_adj_none (t : fp_tree) (idx : Nat)
    (hl : t.routes.lookup (getNode t idx).item = none) :
    ∀ i, (getNode (revise_route_table t idx) i).adjacent_item
      = (getNode t i).adjacent_item := by
  intro i
  rw [revise_route_table, hl]
  rfl

/-! ## Characterization of the creation step `linkNewNode` -/

theorem linkNewNode_idx (t : fp_tree) (ptr : Nat) (k : Key) (c : Nat) :
    (linkNewNode t ptr k c).2 = t.nodes.length := rfl

theorem linkNewNode_mid (t : fp_tree) (ptr : Nat) (k : Key) (c : Nat)
    (hptr : ptr < t.nodes.length) (hfind : find t ptr k = none) :
    add_node (pushNode t k c).1 ptr t.nodes.length
      = setNode (setNode (pushNode t k c).1 ptr
          (fun nn => { nn with children := nn.children ++ [(k, t.nodes.length)] }))
          t.nodes.length (fun nn => { nn with parent := some ptr }) := by
  have hmidn : getNode (pushNode t k c).1 t.nodes.length = ⟨k, c, none, [], none⟩ :=
    getNode_push_self t k c
  have h := add_node_none (pushNode t k c).1 ptr t.nodes.length
    (by rw [hmidn, getNode_push_lt t k c ptr hptr]; exact hfind)
  rw [h, hmidn]

theorem linkNewNode_fields (t : fp_tree) (ptr : Nat) (k : Key) (c : Nat)
    (hptr : ptr < t.nodes.length) (hfind : find t ptr k = none) :
    (linkNewNode t ptr k c).1.nodes.length = t.nodes.length + 1 ∧
    (∀ i, i ≠ t.nodes.length →
        (getNode (linkNewNode t ptr k c).1 i).item = (getNode t i).item ∧
        (getNode (linkNewNode t ptr k c).1 i).count = (getNode t i).count ∧
        (getNode (linkNewNode t ptr k c).1 i).parent = (getNode t i).parent) ∧
    (getNode (linkNewNode t ptr k c).1 t.nodes.length).item = k ∧
    (getNode (linkNewNode t ptr k c).1 t.nodes.length).count = c ∧
    (getNode (linkNewNode t ptr k c).1 t.nodes.length).parent = some ptr ∧
    (∀ i, i ≠ ptr → i ≠ t.nodes.length →
        (getNode (linkNewNode t ptr k c).1 i).children = (getNode t i).children) ∧
    (getNode (linkNewNode t ptr k c).1 ptr).children
        = (getNode t ptr).children ++ [(k, t.nodes.length)] ∧
    (getNode (linkNewNode t ptr k c).1 t.nodes.length).children = [] := by
  have hne : ptr ≠ t.nodes.length := Nat.ne_of_lt hptr
  have hlen1 : (pushNode t k c).1.nodes.length = t.nodes.length + 1 := length_push t k c
  have hsk := revise_skeleton (add_node (pushNode t k c).1 ptr t.nodes.length)
    t.nodes.length
  have hask := add_node_skeleton (pushNode t k c).1 ptr t.nodes.length
  have hmid := linkNewNode_mid t ptr k c hptr hfind
  have hgm : ∀ i, getNode (add_node (pushNode t k c).1 ptr t.nodes.length) i
      = if i = t.nodes.length then
          { getNode (pushNode t k c).1 i with parent := some ptr }
        else if i = ptr then
          { getNode (pushNode t k c).1 i with
              children := (getNode (pushNode t k c).1 i).children ++ [(k, t.nodes.length)] }
        else getNode (pushNode t k c).1 i := by
    intro i
    rw [hmid, getNode_setNode, getNode_setNode, length_setNode, hlen1]
    by_cases h1 : i = t.nodes.length
    · subst h1
      rw [if_pos ⟨rfl, Nat.lt_succ_self _⟩, if_pos rfl]
      rw [if_neg (fun hc => hne (hc.1.symm))]
    · rw [if_neg (fun hc => h1 hc.1), if_neg h1]
      by_cases h2 : i = ptr
      · subst h2
        rw [if_pos ⟨rfl, Nat.lt_succ_of_lt hptr⟩, if_pos rfl]
      · rw [if_neg (fun hc => h2 hc.1), if_neg h2]
  have hL : (linkNewNode t ptr k c).1
      = revise_route_table (add_node (pushNode t k c).1 ptr t.nodes.length)
          t.nodes.length := rfl
  rw [hL]
  refine ⟨?_, ?_, ?_, ?_, ?_, ?_, ?_, ?_⟩
  · rw [hsk.1, hask.1, hlen1]
  · intro i hi
    have h2 := (hsk.2 i)
    have hg := hgm i
    rw [if_neg hi] at hg
    by_cases h2p : i = ptr
    · subst h2p
      refine ⟨?_, ?_, ?_⟩
      · rw [h2.1, hg, if_pos rfl]
        show (getNode (pushNode t k c).1 i).item = _
        rw [getNode_push_lt t k c i hptr]
      · rw [h2.2.1, hg, if_pos rfl]
        show (getNode (pushNode t k c).1 i).count = _
        rw [getNode_push_lt t k c i hptr]
      · rw [h2.2.2.2, hg, if_pos rfl]
        show (getNode (pushNode t k c).1 i).parent = _
        rw [getNode_push_lt t k c i hptr]
    · rw [h2.1, h2.2.1, h2.2.2.2, hg, if_neg h2p]
      by_cases h3 : i < t.nodes.length
      · rw [getNode_push_lt t k c i h3]
        exact ⟨rfl, rfl, rfl⟩
      · have h4 : t.nodes.length ≤ i := Nat.le_of_not_lt h3
        rw [getNode_oob t i h4, getNode_oob (pushNode t k c).1 i
          (by rw [hlen1]; omega)]
        exact ⟨rfl, rfl, rfl⟩
  · rw [(hsk.2 _).1, hgm, if_pos rfl]
    show ({ getNode (pushNode t k c).1 t.nodes.length with parent := some ptr }).item = k
    rw [getNode_push_self]
  · rw [(hsk.2 _).2.1, hgm, if_pos rfl]
    show ({ getNode (pushNode t k c).1 t.nodes.length with parent := some ptr }).count = c
    rw [getNode_push_self]
  · rw [(hsk.2 _).2.2.2, hgm, if_pos rfl]
  · intro i hip hin
    rw [(hsk.2 _).2.2.1, hgm, if_neg hin, if_neg hip]
    by_cases h3 : i < t.nodes.length
    · rw [getNode_push_lt t k c i h3]
    · have h4 : t.nodes.length ≤ i := Nat.le_of_not_lt h3
      rw [getNode_oob t i h4, getNode_oob (pushNode t k c).1 i (by rw [hlen1]; omega)]
  · rw [(hsk.2 _).2.2.1, hgm, if_neg hne, if_pos rfl]
    show ((getNode (pushNode t k c).1 ptr).children ++ [(k, t.nodes.length)])
      = (getNode t ptr).children ++ [(k, t.nodes.length)]
    rw [getNode_push_lt t k c ptr hptr]
  · rw [(hsk.2 _).2.2.1, hgm, if_pos rfl]
    show ({ getNode (pushNode t k c).1 t.nodes.length with parent := some ptr }).children = []
    rw [getNode_push_self]

theorem default_adj : (default : fp_node).adjacent_item = none := rfl

theorem linkNewNode_adj_routes_some (t : fp_tree) (ptr : Nat) (k : Key) (c : Nat)
    (s e : Nat) (hlk : t.routes.lookup k = some (s, e)) :
    (∀ i, i ≠ e → (getNode (linkNewNode t ptr k c).1 i).adjacent_item
        = (getNode t i).adjacent_item) ∧
    (e < t.nodes.length → (getNode (linkNewNode t ptr k c).1 e).adjacent_item
        = some t.nodes.length) ∧
    (linkNewNode t ptr k c).1.routes = routeUpdate t.routes k (s, t.nodes.length) := by
  have hL : (linkNewNode t ptr k c).1
      = revise_route_table (add_node (pushNode t k c).1 ptr t.nodes.length)
          t.nodes.length := rfl
  have hask := add_node_skeleton (pushNode t k c).1 ptr t.nodes.length
  have hit2n : (getNode (add_node (pushNode t k c).1 ptr t.nodes.length)
      t.nodes.length).item = k := by
    rw [(hask.2.2 _).1, getNode_push_self]
  have hroutes2 : (add_node (pushNode t k c).1 ptr t.nodes.length).routes = t.routes := by
    rw [hask.2.1, routes_push]
  have hlk2 : (add_node (pushNode t k c).1 ptr t.nodes.length).routes.lookup
      ((getNode (add_node (pushNode t k c).1 ptr t.nodes.length) t.nodes.length).item)
      = some (s, e) := by
    rw [hit2n, hroutes2]
    exact hlk
  have hadj2 : ∀ i, (getNode (add_node (pushNode t k c).1 ptr t.nodes.length) i).adjacent_item
      = (getNode t i).adjacent_item := by
    intro i
    rw [(hask.2.2 i).2.2]
    by_cases h3 : i < t.nodes.length
    · rw [getNode_push_lt t k c i h3]
    · have h4 : t.nodes.length ≤ i := Nat.le_of_not_lt h3
      rw [getNode_oob t i h4]
      by_cases h5 : i = t.nodes.length
      · subst h5
        rw [getNode_push_self]
        rfl
      · rw [getNode_oob (pushNode t k c).1 i (by rw [length_push]; omega)]
  have hlen2 : (add_node (pushNode t k c).1 ptr t.nodes.length).nodes.length
      = t.nodes.length + 1 := by
    rw [hask.1, length_push]
  have hA := revise_adj_some (add_node (pushNode t k c).1 ptr t.nodes.length)
    t.nodes.length s e hlk2
  refine ⟨?_, ?_, ?_⟩
  · intro i hie
    rw [hL, hA i, if_neg (fun hc => hie hc.1), hadj2 i]
  · intro helt
    rw [hL, hA e, if_pos ⟨rfl, by omega⟩]
  · rw [hL, revise_routes_some _ _ _ _ hlk2, hit2n, hroutes2]

theorem linkNewNode_adj_routes_none (t : fp_tree) (ptr : Nat) (k : Key) (c : Nat)
    (hlk : t.routes.lookup k = none) :
    (∀ i, (getNode (linkNewNode t ptr k c).1 i).adjacent_item
        = (getNode t i).adjacent_item) ∧
    (linkNewNode t ptr k c).1.routes
      = t.routes ++ [(k, t.nodes.length, t.nodes.length)] := by
  have hL : (linkNewNode t ptr k c).1
      = revise_route_table (add_node (pushNode t k c).1 ptr t.nodes.length)
          t.nodes.length := rfl
  have hask := add_node_skeleton (pushNode t k c).1 ptr t.nodes.length
  have hit2n : (getNode (add_node (pushNode t k c).1 ptr t.nodes.length)
      t.nodes.length).item = k := by
    rw [(hask.2.2 _).1, getNode_push_self]
  have hroutes2 : (add_node (pushNode t k c).1 ptr t.nodes.length).routes = t.routes := by
    rw [hask.2.1, routes_push]
  have hlk2 : (add_node (pushNode t k c).1 ptr t.nodes.length).routes.lookup
      ((getNode (add_node (pushNode t k c).1 ptr t.nodes.length) t.nodes.length).item)
      = none := by
    rw [hit2n, hroutes2]
    exact hlk
  have hadj2 : ∀ i, (getNode (add_node (pushNode t k c).1 ptr t.nodes.length) i).adjacent_item
      = (getNode t i).adjacent_item := by
    intro i
    rw [(hask.2.2 i).2.2]
    by_cases h3 : i < t.nodes.length
    · rw [getNode_push_lt t k c i h3]
    · have h4 : t.nodes.length ≤ i := Nat.le_of_not_lt h3
      rw [getNode_oob t i h4]
      by_cases h5 : i = t.nodes.length
      · subst h5
        rw [getNode_push_self]
        rfl
      · rw [getNode_oob (pushNode t k c).1 i (by rw [length_push]; omega)]
  refine ⟨?_, ?_⟩
  · intro i
    rw [hL, revise_adj_none _ _ hlk2 i, hadj2 i]
  · rw [hL, revise_routes_none _ _ hlk2, hit2n, hroutes2]

theorem itemsAt_ext (t t' : fp_tree) (k : Key)
    (hlen : t'.nodes.length = t.nodes.length + 1)
    (hsame : ∀ i, i ≠ t.nodes.length → (getNode t' i).item = (getNode t i).item)
    (hnew : (getNode t' t.nodes.length).item = k)
    (hpos : 1 ≤ t.nodes.length) (y : Key) :
    itemsAt t' y = itemsAt t y ++ if y = k then [t.nodes.length] else [] := by
  unfold itemsAt
  rw [hlen, List.range_succ, List.filter_append]
  congr 1
  · apply List.filter_congr
    intro i hi
    rw [List.mem_range] at hi
    rw [hsame i (Nat.ne_of_lt hi)]
  · rw [List.filter_singleton]
    have h0 : 0 < t.nodes.length := hpos
    by_cases hyk : y = k
    · subst hyk
      simp [hnew, h0]
    · have hky : ¬ k = y := fun h => hyk h.symm
      simp [hnew, hky]
      exact hyk

/-- The creation step preserves chain well-formedness: the new node lands at
the end of its item's chain (or opens a fresh chain), and every other chain
is untouched. -/
theorem linkNewNode_chainsWF (t : fp_tree) (ptr : Nat) (k : Key) (c : Nat)
    (hwf : WF t) (hptr : ptr < t.nodes.length) (hk : k ≠ none)
    (hfind : find t ptr k = none) :
    chainsWF (linkNewNode t ptr k c).1 := by
  obtain ⟨w1, w2, w3, w4, w5, w6⟩ := hwf.1
  obtain ⟨hlen3, hfields, hitn, hcn, hpn, hcho, hchp, hchn⟩ :=
    linkNewNode_fields t ptr k c hptr hfind
  have hitem3 : ∀ i, i ≠ t.nodes.length →
      (getNode (linkNewNode t ptr k c).1 i).item = (getNode t i).item :=
    fun i hi => (hfields i hi).1
  have hIA : ∀ y, itemsAt (linkNewNode t ptr k c).1 y
      = itemsAt t y ++ if y = k then [t.nodes.length] else [] :=
    itemsAt_ext t _ k hlen3 hitem3 hitn w1
  have hadj_tn : (getNode t t.nodes.length).adjacent_item = none := by
    rw [getNode_oob t _ (Nat.le_refl _)]
    rfl
  cases hlk : t.routes.lookup k with
  | some se =>
    rcases se with ⟨s, e⟩
    obtain ⟨ha1, ha2, hr3⟩ := linkNewNode_adj_routes_some t ptr k c s e hlk
    have hmem : (k, (s, e)) ∈ t.routes := mem_of_lookup _ _ _ hlk
    obtain ⟨hc, hlast, hae⟩ := w5 (k, (s, e)) hmem
    have he_mem : e ∈ itemsAt t k := List.mem_of_mem_getLast? hlast
    obtain ⟨helt, hepos, heitem⟩ := (mem_itemsAt t k e).mp he_mem
    have hadj3n : (getNode (linkNewNode t ptr k c).1 t.nodes.length).adjacent_item
        = none := by
      rw [ha1 t.nodes.length (by omega), hadj_tn]
    have hchainK : chainFrom (linkNewNode t ptr k c).1 (t.nodes.length + 1) s
        = itemsAt t k ++ [t.nodes.length] :=
      chainFrom_extend t _ t.nodes.length t.nodes.length (itemsAt t k) s e hc
        (itemsAt_nodup t k) hlast (fun i _ hie => ha1 i hie) (ha2 helt) hadj3n
        (itemsAt_length_lt t k w1)
    have hold : ∀ r ∈ t.routes, r.1 ≠ k →
        chainFrom (linkNewNode t ptr k c).1 (t.nodes.length + 1) r.2.1
            = itemsAt (linkNewNode t ptr k c).1 r.1 ∧
          (itemsAt (linkNewNode t ptr k c).1 r.1).getLast? = some r.2.2 ∧
          (getNode (linkNewNode t ptr k c).1 r.2.2).adjacent_item = none := by
      intro r hr hrk
      obtain ⟨hcy, hly, hay⟩ := w5 r hr
      have hIA_y : itemsAt (linkNewNode t ptr k c).1 r.1 = itemsAt t r.1 := by
        rw [hIA, if_neg hrk, List.append_nil]
      have hlt_y : (chainFrom t t.nodes.length r.2.1).length < t.nodes.length := by
        rw [hcy]
        exact itemsAt_length_lt t r.1 w1
      have hfuel : chainFrom t (t.nodes.length + 1) r.2.1
          = chainFrom t t.nodes.length r.2.1 :=
        chainFrom_fuel_add t t.nodes.length r.2.1 hlt_y 1
      have hdisj : ∀ i ∈ itemsAt t r.1, i ≠ e := by
        intro i hi hie
        obtain ⟨_, _, hitem_i⟩ := (mem_itemsAt t r.1 i).mp hi
        exact hrk (by rw [← hitem_i, hie, heitem])
      have hcong : chainFrom (linkNewNode t ptr k c).1 (t.nodes.length + 1) r.2.1
          = chainFrom t (t.nodes.length + 1) r.2.1 := by
        apply chainFrom_congr
        intro i hi
        rw [hfuel, hcy] at hi
        exact ha1 i (hdisj i hi)
      refine ⟨by rw [hcong, hfuel, hcy, hIA_y], by rw [hIA_y]; exact hly, ?_⟩
      have hlmem : r.2.2 ∈ itemsAt t r.1 := List.mem_of_mem_getLast? hly
      rw [ha1 r.2.2 (hdisj _ hlmem)]
      exact hay
    refine ⟨by rw [hlen3]; omega, ?_, ?_, ?_, ?_, ?_⟩
    · rw [hitem3 0 (by omega)]
      exact w2
    · intro i hi h1i
      rw [List.mem_range, hlen3] at hi
      by_cases hin : i = t.nodes.length
      · rw [hin, hitn]
        exact hk
      · rw [hitem3 i hin]
        exact w3 i (List.mem_range.mpr (by omega)) h1i
    · rw [hr3, routeUpdate_keys]
      exact w4
    · intro r hr
      rw [hr3] at hr
      rcases mem_routeUpdate _ _ _ w4 r hr with h1 | ⟨h1, h2⟩

      · subst h1
        refine ⟨?_, ?_, hadj3n⟩
        · show chainFrom (linkNewNode t ptr k c).1
            (linkNewNode t ptr k c).1.nodes.length s = itemsAt (linkNewNode t ptr k c).1 k
          rw [hlen3, hchainK, hIA k, if_pos rfl]
        · show (itemsAt (linkNewNode t ptr k c).1 k).getLast? = some t.nodes.length
          rw [hIA k, if_pos rfl, List.getLast?_concat]
      · have := hold r h1 h2
        rw [hlen3]
        exact this
    · intro i hi h1i
      rw [List.mem_range, hlen3] at hi
      rw [hr3, routeUpdate_keys]
      by_cases hin : i = t.nodes.length
      · rw [hin, hitn]
        exact List.mem_map.mpr ⟨(k, (s, e)), hmem, rfl⟩
      · rw [hitem3 i hin]
        exact w6 i (List.mem_range.mpr (by omega)) h1i
  | none =>
    obtain ⟨ha1, hr3⟩ := linkNewNode_adj_routes_none t ptr k c hlk
    have hknk : k ∉ t.routes.map Prod.fst := (lookup_none_iff _ _).mp hlk
    have hIAk : itemsAt t k = [] := by
      rw [List.eq_nil_iff_forall_not_mem]
      intro i hi
      obtain ⟨hilt, hipos, hii⟩ := (mem_itemsAt t k i).mp hi
      exact hknk (by rw [← hii]; exact w6 i (List.mem_range.mpr hilt) hipos)
    have hadj3n : (getNode (linkNewNode t ptr k c).1 t.nodes.length).adjacent_item
        = none := by
      rw [ha1 t.nodes.length, hadj_tn]
    have hold : ∀ r ∈ t.routes,
        chainFrom (linkNewNode t ptr k c).1 (t.nodes.length + 1) r.2.1
            = itemsAt (linkNewNode t ptr k c).1 r.1 ∧
          (itemsAt (linkNewNode t ptr k c).1 r.1).getLast? = some r.2.2 ∧
          (getNode (linkNewNode t ptr k c).1 r.2.2).adjacent_item = none := by
      intro r hr
      obtain ⟨hcy, hly, hay⟩ := w5 r hr
      have hrk : r.1 ≠ k := by
        intro hre
        exact hknk (hre ▸ List.mem_map.mpr ⟨r, hr, rfl⟩)
      have hIA_y : itemsAt (linkNewNode t ptr k c).1 r.1 = itemsAt t r.1 := by
        rw [hIA, if_neg hrk, List.append_nil]
      have hlt_y : (chainFrom t t.nodes.length r.2.1).length < t.nodes.length := by
        rw [hcy]
        exact itemsAt_length_lt t r.1 w1
      have hfuel : chainFrom t (t.nodes.length + 1) r.2.1
          = chainFrom t t.nodes.length r.2.1 :=
        chainFrom_fuel_add t t.nodes.length r.2.1 hlt_y 1
      have hcong : chainFrom (linkNewNode t ptr k c).1 (t.nodes.length + 1) r.2.1
          = chainFrom t (t.nodes.length + 1) r.2.1 :=
        chainFrom_congr t _ _ _ (fun i _ => ha1 i)
      refine ⟨by rw [hcong, hfuel, hcy, hIA_y], by rw [hIA_y]; exact hly, ?_⟩
      rw [ha1 r.2.2]
      exact hay
    refine ⟨by rw [hlen3]; omega, ?_, ?_, ?_, ?_, ?_⟩
    · rw [hitem3 0 (by omega)]
      exact w2
    · intro i hi h1i
      rw [List.mem_range, hlen3] at hi
      by_cases hin : i = t.nodes.length
      · rw [hin, hitn]
        exact hk
      · rw [hitem3 i hin]
        exact w3 i (List.mem_range.mpr (by omega)) h1i
    · rw [hr3, keys_append]
      apply List.Nodup.append w4 (List.nodup_singleton _)
      intro a ha hb
      rw [List.mem_singleton] at hb
      exact hknk (hb ▸ ha)
    · intro r hr
      rw [hr3] at hr
      rcases List.mem_append.mp hr with h1 | h1
      · have := hold r h1
        rw [hlen3]
        exact this
      · rw [List.mem_singleton] at h1
        subst h1
        have hchainN : chainFrom (linkNewNode t ptr k c).1 (t.nodes.length + 1)
            t.nodes.length = [t.nodes.length] := by
          rw [chainFrom, hadj3n]
        refine ⟨?_, ?_, hadj3n⟩
        · show chainFrom (linkNewNode t ptr k c).1
            (linkNewNode t ptr k c).1.nodes.length t.nodes.length
            = itemsAt (linkNewNode t ptr k c).1 k
          rw [hlen3, hchainN, hIA k, if_pos rfl, hIAk]
          rfl
        · show (itemsAt (linkNewNode t ptr k c).1 k).getLast? = some t.nodes.length
          rw [hIA k, if_pos rfl, hIAk]
          rfl
    · intro i hi h1i
      rw [List.mem_range, hlen3] at hi
      rw [hr3, keys_append]
      by_cases hin : i = t.nodes.length
      · rw [hin, hitn]
        exact List.mem_append.mpr (Or.inr (List.mem_singleton.mpr rfl))
      · rw [hitem3 i hin]
        exact List.mem_append.mpr (Or.inl (w6 i (List.mem_range.mpr (by omega)) h1i))

/-- The creation step preserves link well-formedness: the new node hangs off
the current pointer, all other links are untouched. -/
theorem linkNewNode_linksWF (t : fp_tree) (ptr : Nat) (k : Key) (c : Nat)
    (hwf : WF t) (hptr : ptr < t.nodes.length) (hk : k ≠ none)
    (hfind : find t ptr k = none) :
    linksWF (linkNewNode t ptr k c).1 := by
  obtain ⟨l1, l2, l3⟩ := hwf.2
  obtain ⟨hlen3, hfields, hitn, hcn, hpn, hcho, hchp, hchn⟩ :=
    linkNewNode_fields t ptr k c hptr hfind
  have hne : ptr ≠ t.nodes.length := Nat.ne_of_lt hptr
  have hch3 : ∀ i, i < t.nodes.length →
      (getNode (linkNewNode t ptr k c).1 i).children
        = (getNode t i).children ++ if i = ptr then [(k, t.nodes.length)] else [] := by
    intro i hi
    by_cases hip : i = ptr
    · subst hip
      rw [hchp, if_pos rfl]
    · rw [hcho i hip (Nat.ne_of_lt hi), if_neg hip, List.append_nil]
  refine ⟨?_, ?_, ?_⟩
  · intro i hi p hp
    rw [List.mem_range, hlen3] at hi
    by_cases hin : i = t.nodes.length
    · subst hin
      rw [hchn] at hp
      simp at hp
    · have hi2 : i < t.nodes.length := by omega
      rw [hch3 i hi2] at hp
      rcases List.mem_append.mp hp with hp1 | hp1
      · obtain ⟨q1, q2, q3, q4⟩ := l1 i (List.mem_range.mpr hi2) p hp1
        refine ⟨q1, by rw [hlen3]; omega, ?_, ?_⟩
        · rw [(hfields p.2 (Nat.ne_of_lt q2)).1]
          exact q3
        · rw [(hfields p.2 (Nat.ne_of_lt q2)).2.2]
          exact q4
      · by_cases hip : i = ptr
        · subst hip
          rw [if_pos rfl, List.mem_singleton] at hp1
          subst hp1
          exact ⟨hptr, by rw [hlen3]; omega, hitn, hpn⟩
        · rw [if_neg hip] at hp1
          simp at hp1
  · intro i hi
    rw [List.mem_range, hlen3] at hi
    by_cases hin : i = t.nodes.length
    · subst hin
      rw [hchn]
      exact List.nodup_nil
    · have hi2 : i < t.nodes.length := by omega
      rw [hch3 i hi2]
      by_cases hip : i = ptr
      · subst hip
        rw [if_pos rfl, List.map_append]
        apply List.Nodup.append (l2 _ (List.mem_range.mpr hi2)) (by simp)
        intro a2 ha2 hb2
        simp only [List.map_cons, List.map_nil, List.mem_singleton] at hb2
        subst hb2
        exact (lookup_none_iff _ _).mp hfind ha2
      · rw [if_neg hip, List.append_nil]
        exact l2 i (List.mem_range.mpr hi2)
  · intro i hi h1i
    rw [List.mem_range, hlen3] at hi
    by_cases hin : i = t.nodes.length
    · subst hin
      refine ⟨ptr, List.mem_range.mpr hptr, hpn, ?_⟩
      rw [hitn, hchp]
      exact List.mem_append.mpr (Or.inr (List.mem_singleton.mpr rfl))
    · have hi2 : i < t.nodes.length := by omega
      obtain ⟨p, hp1, hp2, hp3⟩ := l3 i (List.mem_range.mpr hi2) h1i
      rw [List.mem_range] at hp1
      refine ⟨p, List.mem_range.mpr hp1, ?_, ?_⟩
      · rw [(hfields i hin).2.2]
        exact hp2
      · rw [(hfields i hin).1, hch3 p (by omega)]
        exact List.mem_append.mpr (Or.inl hp3)

/-- The creation step preserves well-formedness. -/
theorem linkNewNode_WF (t : fp_tree) (ptr : Nat) (k : Key) (c : Nat)
    (hwf : WF t) (hptr : ptr < t.nodes.length) (hk : k ≠ none)
    (hfind : find t ptr k = none) :
    WF (linkNewNode t ptr k c).1 :=
  ⟨linkNewNode_chainsWF t ptr k c hwf hptr hk hfind,
   linkNewNode_linksWF t ptr k c hwf hptr hk hfind⟩

/-! ## Congruence of the well-formedness predicates -/

theorem chainsWF_congr (t t' : fp_tree)
    (hlen : t'.nodes.length = t.nodes.length)
    (hroutes : t'.routes = t.routes)
    (hitem : ∀ i, (getNode t' i).item = (getNode t i).item)
    (hadj : ∀ i, (getNode t' i).adjacent_item = (getNode t i).adjacent_item)
    (h : chainsWF t) : chainsWF t' := by
  obtain ⟨h1, h2, h3, h4, h5, h6⟩ := h
  have hitems : ∀ x, itemsAt t' x = itemsAt t x :=
    itemsAt_congr t t' hlen (fun i _ => hitem i)
  have hchain : ∀ fuel s, chainFrom t' fuel s = chainFrom t fuel s :=
    fun fuel s => chainFrom_congr t t' fuel s (fun i _ => hadj i)
  refine ⟨by rw [hlen]; exact h1, by rw [hitem 0]; exact h2, ?_, by rw [hroutes]; exact h4,
    ?_, ?_⟩
  · intro i hi h1i
    rw [hlen] at hi
    rw [hitem i]
    exact h3 i hi h1i
  · intro r hr
    rw [hroutes] at hr
    obtain ⟨hc, hl, ha⟩ := h5 r hr
    exact ⟨by rw [hlen, hchain, hitems]; exact hc, by rw [hitems]; exact hl,
      by rw [hadj]; exact ha⟩
  · intro i hi h1i
    rw [hlen] at hi
    rw [hitem i, hroutes]
    exact h6 i hi h1i

theorem linksWF_congr (t t' : fp_tree)
    (hlen : t'.nodes.length = t.nodes.length)
    (hitem : ∀ i, (getNode t' i).item = (getNode t i).item)
    (hch : ∀ i, (getNode t' i).children = (getNode t i).children)
    (hpar : ∀ i, (getNode t' i).parent = (getNode t i).parent)
    (h : linksWF t) : linksWF t' := by
  obtain ⟨h1, h2, h3⟩ := h
  refine ⟨?_, ?_, ?_⟩
  · intro i hi p hp
    rw [hlen] at hi
    rw [hch i] at hp
    obtain ⟨ha, hb, hc, hd⟩ := h1 i hi p hp
    exact ⟨ha, by rw [hlen]; exact hb, by rw [hitem]; exact hc, by rw [hpar]; exact hd⟩
  · intro i hi
    rw [hlen] at hi
    rw [hch i]
    exact h2 i hi
  · intro i hi h1i
    rw [hlen] at hi
    obtain ⟨p, hp1, hp2, hp3⟩ := h3 i hi h1i
    exact ⟨p, hp1, by rw [hpar]; exact hp2, by rw [hitem, hch]; exact hp3⟩

theorem WF_congr (t t' : fp_tree)
    (hlen : t'.nodes.length = t.nodes.length)
    (hroutes : t'.routes = t.routes)
    (hitem : ∀ i, (getNode t' i).item = (getNode t i).item)
    (hadj : ∀ i, (getNode t' i).adjacent_item = (getNode t i).adjacent_item)
    (hch : ∀ i, (getNode t' i).children = (getNode t i).children)
    (hpar : ∀ i, (getNode t' i).parent = (getNode t i).parent)
    (h : WF t) : WF t' :=
  ⟨chainsWF_congr t t' hlen hroutes hitem hadj h.1,
   linksWF_congr t t' hlen hitem hch hpar h.2⟩

/-! ## Well-formedness of every tree the algorithm builds -/

theorem setNode_pres_WF (t : fp_tree) (j : Nat) (f : fp_node → fp_node)
    (hf : ∀ n, (f n).item = n.item ∧ (f n).adjacent_item = n.adjacent_item ∧
      (f n).children = n.children ∧ (f n).parent = n.parent)
    (hwf : WF t) : WF (setNode t j f) := by
  apply WF_congr t _ (length_setNode t j f) (routes_setNode t j f) _ _ _ _ hwf
  all_goals intro i
  all_goals rw [getNode_setNode]
  all_goals split_ifs with h
  · exact (hf _).1
  · rfl
  · exact (hf _).2.1
  · rfl
  · exact (hf _).2.2.1
  · rfl
  · exact (hf _).2.2.2
  · rfl

theorem find_some_facts (t : fp_tree) (ptr : Nat) (x : Key) (nxt : Nat)
    (hwf : WF t) (hptr : ptr < t.nodes.length) (h : find t ptr x = some nxt) :
    ptr < nxt ∧ nxt < t.nodes.length ∧ (getNode t nxt).item = x := by
  have hmem : (x, nxt) ∈ (getNode t ptr).children := mem_of_lookup _ _ _ h
  obtain ⟨q1, q2, q3, _⟩ := hwf.2.1 ptr (List.mem_range.mpr hptr) (x, nxt) hmem
  exact ⟨q1, q2, q3⟩

theorem appendGo_WF : ∀ (l : List Nat) (t : fp_tree) (ptr : Nat),
    WF t → ptr < t.nodes.length → WF (appendGo t ptr l) := by
  intro l
  induction l with
  | nil => intro t ptr h _; exact h
  | cons x rest ih =>
    intro t ptr hwf hptr
    rw [appendGo]
    cases hf : find t ptr (some x) with
    | some nxt =>
      obtain ⟨q1, q2, _⟩ := find_some_facts t ptr (some x) nxt hwf hptr hf
      exact ih _ nxt
        (setNode_pres_WF t nxt _ (fun n => ⟨rfl, rfl, rfl, rfl⟩) hwf)
        (by rw [length_setNode]; exact q2)
    | none =>
      have hWF2 := linkNewNode_WF t ptr (some x) 1 hwf hptr (by simp) hf
      have hlen := (linkNewNode_fields t ptr (some x) 1 hptr hf).1
      exact ih _ _ hWF2 (by rw [linkNewNode_idx, hlen]; omega)

theorem fpTreeNew_WF : WF fpTreeNew := by
  unfold WF chainsWF linksWF
  decide

theorem append_items_WF (t : fp_tree) (l : List Nat) (hwf : WF t) :
    WF (append_items t l) :=
  appendGo_WF l t 0 hwf hwf.1.1

theorem build_WF (txns : List (List Nat)) :
    WF (txns.foldl append_items fpTreeNew) := by
  suffices h : ∀ t, WF t → WF (txns.foldl append_items t) from h fpTreeNew fpTreeNew_WF
  induction txns with
  | nil => intro t h; exact h
  | cons hd tl ih =>
    intro t h
    exact ih _ (append_items_WF t hd h)

theorem pathUp_items (t : fp_tree) :
    ∀ fuel i, ∀ j ∈ pathUp t fuel i, (getNode t j).item ≠ none := by
  intro fuel
  induction fuel with
  | zero => intro i j hj; simp [pathUp] at hj
  | succ f ih =>
    intro i j hj
    rw [pathUp] at hj
    by_cases hroot : (getNode t i).item = none
    · rw [if_pos hroot] at hj
      simp at hj
    · rw [if_neg hroot] at hj
      rcases List.mem_cons.mp hj with h1 | h1
      · rw [h1]; exact hroot
      · cases hp : (getNode t i).parent with
        | none => rw [hp] at h1; simp at h1
        | some p =>
          rw [hp] at h1
          exact ih p j h1

theorem mem_foldl_cons {α β : Type} (g : α → β) :
    ∀ (l : List α) (acc : List β) (y : β),
      (y ∈ l.foldl (fun acc n => g n :: acc) acc ↔ (∃ n ∈ l, y = g n) ∨ y ∈ acc) := by
  intro l
  induction l with
  | nil => intro acc y; simp
  | cons hd tl ih =>
    intro acc y
    rw [List.foldl_cons, ih]
    constructor
    · rintro (⟨n, hn, hy⟩ | hy)
      · exact Or.inl ⟨n, List.mem_cons_of_mem _ hn, hy⟩
      · rcases List.mem_cons.mp hy with h1 | h1
        · exact Or.inl ⟨hd, List.mem_cons_self _ _, h1⟩
        · exact Or.inr h1
    · rintro (⟨n, hn, hy⟩ | hy)
      · rcases List.mem_cons.mp hn with h1 | h1
        · exact Or.inr (by rw [hy, h1]; exact List.mem_cons_self _ _)
        · exact Or.inl ⟨n, h1, hy⟩
      · exact Or.inr (List.mem_cons_of_mem _ hy)

theorem mem_get_parent_paths (t : fp_tree) (x : Key) (p : List Nat)
    (h : p ∈ get_parent_paths t x) :
    ∃ nd ∈ get_nodes t x, p = (pathUp t t.nodes.length nd).reverse := by
  unfold get_parent_paths at h
  rcases (mem_foldl_cons _ _ _ _).mp h with ⟨nd, hnd, hy⟩ | habs
  · exact ⟨nd, hnd, hy⟩
  · simp at habs

theorem get_parent_paths_items (t : fp_tree) (x : Key) (p : List Nat)
    (h : p ∈ get_parent_paths t x) :
    ∀ i ∈ p, (getNode t i).item ≠ none := by
  obtain ⟨nd, _, hy⟩ := mem_get_parent_paths t x p h
  intro i hi
  rw [hy, List.mem_reverse] at hi
  exact pathUp_items t _ nd i hi

theorem condInsertPath_WF (src : fp_tree) (ci : Key) :
    ∀ (path : List Nat) (dst : fp_tree) (ptr : Nat),
      WF dst → ptr < dst.nodes.length →
      (∀ i ∈ path, (getNode src i).item ≠ none) →
      WF (condInsertPath src ci dst ptr path) := by
  intro path
  induction path with
  | nil => intro dst ptr h _ _; exact h
  | cons i rest ih =>
    intro dst ptr hwf hptr hitems
    rw [condInsertPath]
    cases hf : find dst ptr (getNode src i).item with
    | some nxt =>
      obtain ⟨_, q2, _⟩ := find_some_facts dst ptr _ nxt hwf hptr hf
      exact ih dst nxt hwf q2 (fun j hj => hitems j (List.mem_cons_of_mem _ hj))
    | none =>
      have hWF2 := linkNewNode_WF dst ptr (getNode src i).item
        (if (getNode src i).item = ci then (getNode src i).count else 0) hwf hptr
        (hitems i (List.mem_cons_self _ _)) hf
      have hlen := (linkNewNode_fields dst ptr (getNode src i).item
        (if (getNode src i).item = ci then (getNode src i).count else 0) hptr hf).1
      exact ih _ _ hWF2 (by rw [linkNewNode_idx, hlen]; omega)
        (fun j hj => hitems j (List.mem_cons_of_mem _ hj))

theorem buildCondTree_WF_aux (src : fp_tree) :
    ∀ (paths : List (List Nat)),
      (∀ p ∈ paths, ∀ i ∈ p, (getNode src i).item ≠ none) →
      ∀ acc : fp_tree × Key, WF acc.1 →
      WF (paths.foldl (fun acc path =>
        match acc.2 with
        | some c => (condInsertPath src (some c) acc.1 0 path, some c)
        | none =>
          match path.getLast? with
          | some last =>
            let c := (getNode src last).item
            (condInsertPath src c acc.1 0 path, c)
          | none => acc) acc).1 := by
  intro paths
  induction paths with
  | nil => intro _ acc h; exact h
  | cons p rest ih =>
    intro hp acc hacc
    rw [List.foldl_cons]
    apply ih (fun q hq => hp q (List.mem_cons_of_mem _ hq))
    cases hc : acc.2 with
    | some c =>
      exact condInsertPath_WF src (some c) p acc.1 0 hacc hacc.1.1
        (hp p (List.mem_cons_self _ _))
    | none =>
      cases hl : p.getLast? with
      | some last =>
        exact condInsertPath_WF src _ p acc.1 0 hacc hacc.1.1
          (hp p (List.mem_cons_self _ _))
      | none => exact hacc

theorem buildCondTree_WF (src : fp_tree) (paths : List (List Nat))
    (hp : ∀ p ∈ paths, ∀ i ∈ p, (getNode src i).item ≠ none) :
    WF (buildCondTree src paths).1 :=
  buildCondTree_WF_aux src paths hp (fpTreeNew, none) fpTreeNew_WF

theorem foldl_setNode_WF (f : fp_node → fp_node)
    (hf : ∀ n, (f n).item = n.item ∧ (f n).adjacent_item = n.adjacent_item ∧
      (f n).children = n.children ∧ (f n).parent = n.parent) :
    ∀ (l : List Nat) (t : fp_tree), WF t →
      WF (l.foldl (fun acc i => setNode acc i f) t) := by
  intro l
  induction l with
  | nil => intro t h; exact h
  | cons hd tl ih =>
    intro t h
    rw [List.foldl_cons]
    exact ih _ (setNode_pres_WF t hd f hf h)

theorem propagatePath_WF (t : fp_tree) (path : List Nat) (hwf : WF t) :
    WF (propagatePath t path) := by
  rw [propagatePath]
  cases hl : path.getLast? with
  | none => exact hwf
  | some last =>
    show WF (path.dropLast.reverse.foldl
      (fun acc i => setNode acc i
        (fun n => { n with count := n.count + (getNode t last).count })) t)
    exact foldl_setNode_WF
      (fun n => { n with count := n.count + (getNode t last).count })
      (fun n => ⟨rfl, rfl, rfl, rfl⟩) path.dropLast.reverse t hwf

theorem propagateCounts_WF (t : fp_tree) (ci : Key) (hwf : WF t) :
    WF (propagateCounts t ci) := by
  rw [propagateCounts]
  suffices h : ∀ (ps : List (List Nat)) (t0 : fp_tree), WF t0 →
      WF (ps.foldl propagatePath t0) from h _ t hwf
  intro ps
  induction ps with
  | nil => intro t0 h; exact h
  | cons hd tl ih =>
    intro t0 h
    rw [List.foldl_cons]
    exact ih _ (propagatePath_WF t0 hd h)

theorem condTreeOf_WF (tree : fp_tree) (x : Key) :
    WF (condTreeOf tree x) := by
  rw [condTreeOf]
  exact propagateCounts_WF _ _
    (buildCondTree_WF tree _ (fun p hp => get_parent_paths_items tree x p hp))

/-! ## The route table of a well-formed tree -/

theorem itemsAt_eq_nil_of_not_key (t : fp_tree) (hwf : chainsWF t) (x : Key)
    (h : x ∉ t.routes.map Prod.fst) : itemsAt t x = [] := by
  rw [List.eq_nil_iff_forall_not_mem]
  intro i hi
  obtain ⟨hilt, hipos, hii⟩ := (mem_itemsAt t x i).mp hi
  exact h (by rw [← hii]; exact hwf.2.2.2.2.2 i (List.mem_range.mpr hilt) hipos)

theorem get_nodes_eq (t : fp_tree) (hwf : WF t) (x : Key) :
    get_nodes t x = itemsAt t x := by
  unfold get_nodes
  cases hl : t.routes.lookup x with
  | none =>
    rw [itemsAt_eq_nil_of_not_key t hwf.1 x ((lookup_none_iff _ _).mp hl)]
  | some se =>
    rcases se with ⟨s, e⟩
    have hmem : (x, (s, e)) ∈ t.routes := mem_of_lookup _ _ _ hl
    exact (hwf.1.2.2.2.2.1 (x, (s, e)) hmem).1

theorem key_mem_iff (t : fp_tree) (hwf : WF t) (x : Key) :
    x ∈ t.routes.map Prod.fst ↔ itemsAt t x ≠ [] := by
  constructor
  · intro h
    obtain ⟨r, hr, hfst⟩ := List.mem_map.mp h
    obtain ⟨_, hlast, _⟩ := hwf.1.2.2.2.2.1 r hr
    rw [hfst] at hlast
    intro habs
    rw [habs] at hlast
    simp at hlast
  · intro h
    by_contra habs
    exact h (itemsAt_eq_nil_of_not_key t hwf.1 x habs)

/-! ## Support counts of the built tree -/

theorem countsSum_append (t : fp_tree) (l1 l2 : List Nat) :
    countsSum t (l1 ++ l2) = countsSum t l1 + countsSum t l2 := by
  simp [countsSum]

theorem count_cons_nat (y x : Nat) (l : List Nat) :
    (x :: l).count y = l.count y + if y = x then 1 else 0 := by
  rw [List.count_cons]
  by_cases h : y = x
  · subst h
    simp
  · have h2 : ¬ x = y := fun hh => h hh.symm
    simp [h, h2]

/-- Every insertion of an item adds exactly one to the total count carried by
that item's nodes: an existing child is incremented, a missing one is created
with count 1. -/
theorem appendGo_countsSum :
    ∀ (l : List Nat) (t : fp_tree) (ptr : Nat), WF t → ptr < t.nodes.length →
      ∀ y : Nat,
        countsSum (appendGo t ptr l) (itemsAt (appendGo t ptr l) (some y))
          = countsSum t (itemsAt t (some y)) + l.count y := by
  intro l
  induction l with
  | nil =>
    intro t ptr _ _ y
    simp [appendGo]
  | cons x rest ih =>
    intro t ptr hwf hptr y
    rw [appendGo]
    cases hf : find t ptr (some x) with
    | some nxt =>
      obtain ⟨q1, q2, q3⟩ := find_some_facts t ptr (some x) nxt hwf hptr hf
      have hWF2 : WF (setNode t nxt (fun n => { n with count := n.count + 1 })) :=
        setNode_pres_WF t nxt _ (fun n => ⟨rfl, rfl, rfl, rfl⟩) hwf
      have hIA2 : ∀ z : Key,
          itemsAt (setNode t nxt (fun n => { n with count := n.count + 1 })) z
            = itemsAt t z := by
        intro z
        apply itemsAt_congr _ _ (length_setNode t nxt _)
        intro i _
        rw [getNode_setNode]
        split_ifs <;> rfl
      have hih := ih (setNode t nxt (fun n => { n with count := n.count + 1 })) nxt
        hWF2 (by rw [length_setNode]; exact q2) y
      refine hih.trans ?_
      rw [hIA2 (some y), count_cons_nat]
      by_cases hxy : y = x
      · subst hxy
        rw [if_pos rfl]
        rw [countsSum_update t (itemsAt t (some y)) nxt 1 (itemsAt_nodup _ _)
          ((mem_itemsAt t (some y) nxt).mpr ⟨q2, by omega, q3⟩) q2]
        omega
      · rw [if_neg hxy]
        have hnm : nxt ∉ itemsAt t (some y) := by
          intro hm
          obtain ⟨_, _, hitem⟩ := (mem_itemsAt t (some y) nxt).mp hm
          rw [q3] at hitem
          exact hxy (Option.some.inj hitem).symm
        have hcsame : countsSum (setNode t nxt (fun n => { n with count := n.count + 1 }))
            (itemsAt t (some y)) = countsSum t (itemsAt t (some y)) := by
          apply countsSum_congr
          intro i hi
          rw [getNode_setNode, if_neg (by intro hc; exact hnm (hc.1 ▸ hi))]
        rw [hcsame]
        omega
    | none =>
      obtain ⟨hlen3, hfields, hitn, hcn, hpn, hcho, hchp, hchn⟩ :=
        linkNewNode_fields t ptr (some x) 1 hptr hf
      have hWF3 := linkNewNode_WF t ptr (some x) 1 hwf hptr (by simp) hf
      have hptr3 : (linkNewNode t ptr (some x) 1).2
          < (linkNewNode t ptr (some x) 1).1.nodes.length := by
        rw [linkNewNode_idx, hlen3]
        omega
      have hIA := itemsAt_ext t (linkNewNode t ptr (some x) 1).1 (some x) hlen3
        (fun i hi => (hfields i hi).1) hitn hwf.1.1
      have hold_counts : ∀ i ∈ itemsAt t (some y),
          (getNode (linkNewNode t ptr (some x) 1).1 i).count = (getNode t i).count := by
        intro i hi
        obtain ⟨hilt, _, _⟩ := (mem_itemsAt _ _ _).mp hi
        exact (hfields i (Nat.ne_of_lt hilt)).2.1
      have hih := ih (linkNewNode t ptr (some x) 1).1 (linkNewNode t ptr (some x) 1).2
        hWF3 hptr3 y
      refine hih.trans ?_
      rw [count_cons_nat]
      by_cases hxy : y = x
      · subst hxy
        rw [if_pos rfl, hIA (some y), if_pos rfl, countsSum_append]
        have hone : countsSum (linkNewNode t ptr (some y) 1).1 [t.nodes.length] = 1 := by
          simp [countsSum, hcn]
        rw [hone, countsSum_congr _ _ _ hold_counts]
        omega
      · rw [if_neg hxy, hIA (some y),
          if_neg (fun h => hxy (Option.some.inj h)), List.append_nil,
          countsSum_congr _ _ _ hold_counts]
        omega

theorem itemsAt_fpTreeNew (z : Key) : itemsAt fpTreeNew z = [] := by
  simp [itemsAt, fpTreeNew]

/-- Over the whole build, the counts carried by an item's nodes sum to the
item's total number of occurrences across the inserted transactions. -/
theorem build_countsSum (txns : List (List Nat)) (y : Nat) :
    countsSum (txns.foldl append_items fpTreeNew)
      (itemsAt (txns.foldl append_items fpTreeNew) (some y))
      = (txns.map (fun u => u.count y)).sum := by
  suffices h : ∀ (ts : List (List Nat)) (t : fp_tree), WF t →
      countsSum (ts.foldl append_items t) (itemsAt (ts.foldl append_items t) (some y))
        = countsSum t (itemsAt t (some y)) + (ts.map (fun u => u.count y)).sum by
    rw [h txns fpTreeNew fpTreeNew_WF, itemsAt_fpTreeNew]
    simp [countsSum]
  intro ts
  induction ts with
  | nil => intro t _; simp
  | cons hd tl ihts =>
    intro t hwf
    rw [List.foldl_cons]
    have h1 := ihts (append_items t hd) (append_items_WF t hd hwf)
    rw [h1]
    show countsSum (appendGo t 0 hd) (itemsAt (appendGo t 0 hd) (some y)) + _ = _
    rw [appendGo_countsSum hd t 0 hwf hwf.1.1 y]
    simp
    omega

/-! ## Occurrence bounds through normalization -/

theorem removeGo_count (m : List (Nat × Nat)) :
    ∀ (fuel : Nat) (l : List Nat) (i y : Nat),
      (removeGo m fuel l i).count y ≤ l.count y := by
  intro fuel
  induction fuel with
  | zero => intro l i y; exact Nat.le_refl _
  | succ f ih =>
    intro l i y
    rw [removeGo]
    by_cases h : i < l.length
    · rw [dif_pos h]
      by_cases hm : ((m.lookup (l.get ⟨i, h⟩)).isSome : Prop)
      · rw [if_pos hm]
        exact ih l (i + 1) y
      · rw [if_neg hm]
        calc (removeGo m f (l.erase (l.get ⟨i, h⟩)) (i + 1)).count y
            ≤ (l.erase (l.get ⟨i, h⟩)).count y := ih _ (i + 1) y
          _ ≤ l.count y := (List.erase_sublist _ _).count_le y
    · rw [dif_neg h]

theorem order_transactions_count (m : List (Nat × Nat)) (txn : List Nat) (y : Nat) :
    (order_transactions m txn).1.count y ≤ txn.count y := by
  unfold order_transactions
  calc ((removeLoop m txn).insertionSort
          (fun a b => keyOf (sortKeyPass (removeLoop m txn) m) b
            ≤ keyOf (sortKeyPass (removeLoop m txn) m) a)).count y
      = (removeLoop m txn).count y :=
        (List.perm_insertionSort _ _).count_eq y
    _ ≤ txn.count y := removeGo_count m txn.length txn 0 y

theorem normalizeAll_counts :
    ∀ (txns : List (List Nat)) (acc : List (List Nat)) (m : List (Nat × Nat)) (y : Nat),
      (((txns.foldl
          (fun acc t =>
            let r := order_transactions acc.2 t
            (acc.1 ++ [r.1], r.2)) (acc, m)).1).map (fun u => u.count y)).sum
        ≤ (acc.map (fun u => u.count y)).sum + (txns.map (fun u => u.count y)).sum := by
  intro txns
  induction txns with
  | nil => intro acc m y; simp
  | cons hd tl ih =>
    intro acc m y
    rw [List.foldl_cons]
    calc ((tl.foldl
            (fun acc t =>
              let r := order_transactions acc.2 t
              (acc.1 ++ [r.1], r.2))
            (acc ++ [(order_transactions m hd).1],
              (order_transactions m hd).2)).1.map (fun u => u.count y)).sum
        ≤ ((acc ++ [(order_transactions m hd).1]).map (fun u => u.count y)).sum
            + (tl.map (fun u => u.count y)).sum :=
          ih (acc ++ [(order_transactions m hd).1]) (order_transactions m hd).2 y
      _ ≤ (acc.map (fun u => u.count y)).sum + ((hd :: tl).map (fun u => u.count y)).sum := by
          rw [List.map_append, List.sum_append, List.map_cons, List.sum_cons]
          have := order_transactions_count m hd y
          simp
          omega

theorem sum_map_le_length (txns : List (List Nat)) (f : List Nat → Nat)
    (h : ∀ u ∈ txns, f u ≤ 1) : (txns.map f).sum ≤ txns.length := by
  induction txns with
  | nil => simp
  | cons hd tl ih =>
    rw [List.map_cons, List.sum_cons, List.length_cons]
    have h1 := h hd (List.mem_cons_self _ _)
    have h2 := ih (fun u hu => h u (List.mem_cons_of_mem _ hu))
    omega

theorem condLevel_nil (minsup : Nat)
    (recurse : fp_tree → List Key → List (List Key × Nat))
    (tree : fp_tree) (retr : List Key) :
    ∀ pending, (∀ x ∈ pending, supportOf tree (get_nodes tree x) < minsup) →
      condLevel minsup recurse tree retr pending = [] := by
  intro pending
  induction pending with
  | nil => intro _; rw [condLevel]
  | cons x xs ihp =>
    intro h
    rw [condLevel]
    rw [if_pos (Or.inl (h x (List.mem_cons_self _ _)))]
    exact ihp (fun z hz => h z (List.mem_cons_of_mem _ hz))

theorem key_ne_none (t : fp_tree) (hwf : WF t) (x : Key)
    (h : x ∈ t.routes.map Prod.fst) : x ≠ none := by
  have h1 := (key_mem_iff t hwf x).mp h
  cases hne : itemsAt t x with
  | nil => exact absurd hne h1
  | cons i rest =>
    have hi : i ∈ itemsAt t x := by rw [hne]; exact List.mem_cons_self _ _
    obtain ⟨hilt, hipos, hii⟩ := (mem_itemsAt t x i).mp hi
    rw [← hii]
    exact hwf.1.2.2.1 i (List.mem_range.mpr hilt) hipos

/-- C6 amended.  For transactions without repeated items, a minimum support
exceeding the number of transactions forces an empty result: every route item
of the built tree carries a total count bounded by its occurrence count over
the input, which is at most the number of transactions, so every item fails
the support guard and nothing is yielded. -/
theorem generate_empty_of_minsup_gt (txns : List (List Nat)) (minsup : Nat)
    (hdup : ∀ u ∈ txns, u.Nodup) (hlt : txns.length < minsup) :
    generate_freq_item_sets txns minsup = [] := by
  unfold generate_freq_item_sets
  rw [conditional_db]
  apply condLevel_nil
  intro x hx
  have hwf := build_WF (normalizeAll txns (filteredCounts txns minsup)).1
  have hxn : x ≠ none := key_ne_none _ hwf x hx
  cases x with
  | none => exact absurd rfl hxn
  | some y =>
    rw [supportOf_eq_countsSum, get_nodes_eq _ hwf, build_countsSum]
    have hb1 := normalizeAll_counts txns [] (filteredCounts txns minsup) y
    have hb2 : (txns.map (fun u => u.count y)).sum ≤ txns.length :=
      sum_map_le_length txns _
        (fun u hu => List.nodup_iff_count_le_one.mp (hdup u hu) y)
    rw [normalizeAll]
    simp only [List.map_nil, List.sum_nil, Nat.zero_add] at hb1
    have hb1' : (List.map (fun u => List.count y u)
        (List.foldl
          (fun acc t =>
            let r := order_transactions acc.2 t
            (acc.1 ++ [r.1], r.2))
          ([], filteredCounts txns minsup) txns).1).sum
        ≤ (List.map (fun u => List.count y u) txns).sum := hb1
    omega

/-- Witness for C6 amended: two duplicate-free transactions, minimum
support 3. -/
theorem generate_empty_of_minsup_gt_witness :
    generate_freq_item_sets [[0], [1]] 3 = [] :=
  generate_empty_of_minsup_gt [[0], [1]] 3 (by decide) (by decide)

/-! ## The item universe of a conditional tree, and termination -/

theorem linkNewNode_keys (t : fp_tree) (ptr : Nat) (k : Key) (c : Nat) :
    ∀ z, z ∈ (linkNewNode t ptr k c).1.routes.map Prod.fst →
      z ∈ t.routes.map Prod.fst ∨ z = k := by
  intro z hz
  cases hlk : t.routes.lookup k with
  | some se =>
    rcases se with ⟨s, e⟩
    rw [(linkNewNode_adj_routes_some t ptr k c s e hlk).2.2, routeUpdate_keys] at hz
    exact Or.inl hz
  | none =>
    rw [(linkNewNode_adj_routes_none t ptr k c hlk).2, keys_append] at hz
    rcases List.mem_append.mp hz with h1 | h1
    · exact Or.inl h1
    · exact Or.inr (List.mem_singleton.mp h1)

theorem condInsertPath_keys (src : fp_tree) (ci : Key) :
    ∀ (path : List Nat) (dst : fp_tree) (ptr : Nat) (z : Key),
      z ∈ (condInsertPath src ci dst ptr path).routes.map Prod.fst →
      z ∈ dst.routes.map Prod.fst ∨ ∃ i ∈ path, (getNode src i).item = z := by
  intro path
  induction path with
  | nil => intro dst ptr z hz; exact Or.inl hz
  | cons i rest ih =>
    intro dst ptr z hz
    rw [condInsertPath] at hz
    cases hf : find dst ptr (getNode src i).item with
    | some nxt =>
      rw [hf] at hz
      rcases ih dst nxt z hz with h1 | ⟨j, hj1, hj2⟩
      · exact Or.inl h1
      · exact Or.inr ⟨j, List.mem_cons_of_mem _ hj1, hj2⟩
    | none =>
      rw [hf] at hz
      rcases ih _ _ z hz with h1 | ⟨j, hj1, hj2⟩
      · rcases linkNewNode_keys dst ptr (getNode src i).item _ z h1 with h2 | h2
        · exact Or.inl h2
        · exact Or.inr ⟨i, List.mem_cons_self _ _, h2.symm⟩
      · exact Or.inr ⟨j, List.mem_cons_of_mem _ hj1, hj2⟩

theorem buildCondTree_keys (src : fp_tree) :
    ∀ (paths : List (List Nat)) (acc : fp_tree × Key) (z : Key),
      z ∈ (paths.foldl (fun acc path =>
        match acc.2 with
        | some c => (condInsertPath src (some c) acc.1 0 path, some c)
        | none =>
          match path.getLast? with
          | some last =>
            let c := (getNode src last).item
            (condInsertPath src c acc.1 0 path, c)
          | none => acc) acc).1.routes.map Prod.fst →
      z ∈ acc.1.routes.map Prod.fst ∨ ∃ p ∈ paths, ∃ i ∈ p, (getNode src i).item = z := by
  intro paths
  induction paths with
  | nil => intro acc z hz; exact Or.inl hz
  | cons p rest ih =>
    intro acc z hz
    rw [List.foldl_cons] at hz
    have step : ∀ acc2 : fp_tree × Key,
        z ∈ acc2.1.routes.map Prod.fst →
        (acc2 = (match acc.2 with
          | some c => (condInsertPath src (some c) acc.1 0 p, some c)
          | none =>
            match p.getLast? with
            | some last =>
              let c := (getNode src last).item
              (condInsertPath src c acc.1 0 p, c)
            | none => acc)) →
        z ∈ acc.1.routes.map Prod.fst ∨ ∃ i ∈ p, (getNode src i).item = z := by
      intro acc2 hmem heq
      cases hc : acc.2 with
      | some c =>
        rw [hc] at heq
        rw [heq] at hmem
        exact condInsertPath_keys src (some c) p acc.1 0 z hmem
      | none =>
        rw [hc] at heq
        cases hl : p.getLast? with
        | some last =>
          rw [hl] at heq
          rw [heq] at hmem
          exact condInsertPath_keys src _ p acc.1 0 z hmem
        | none =>
          rw [hl] at heq
          rw [heq] at hmem
          exact Or.inl hmem
    rcases ih _ z hz with h1 | ⟨q, hq1, hq2⟩
    · rcases step _ h1 rfl with h2 | h2
      · exact Or.inl h2
      · exact Or.inr ⟨p, List.mem_cons_self _ _, h2⟩
    · exact Or.inr ⟨q, List.mem_cons_of_mem _ hq1, hq2⟩

theorem foldl_setNode_routes (f : fp_node → fp_node) :
    ∀ (l : List Nat) (t : fp_tree),
      (l.foldl (fun acc i => setNode acc i f) t).routes = t.routes := by
  intro l
  induction l with
  | nil => intro t; rfl
  | cons hd tl ihl =>
    intro t
    rw [List.foldl_cons, ihl, routes_setNode]

theorem propagatePath_routes (t : fp_tree) (path : List Nat) :
    (propagatePath t path).routes = t.routes := by
  rw [propagatePath]
  cases hl : path.getLast? with
  | none => rfl
  | some last =>
    exact foldl_setNode_routes
      (fun n => { n with count := n.count + (getNode t last).count })
      path.dropLast.reverse t

theorem propagateCounts_routes (t : fp_tree) (ci : Key) :
    (propagateCounts t ci).routes = t.routes := by
  rw [propagateCounts]
  generalize get_parent_paths t ci = ps
  induction ps generalizing t with
  | nil => rfl
  | cons hd tl ihp =>
    rw [List.foldl_cons, ihp, propagatePath_routes]

theorem path_item_key (tree : fp_tree) (hwf : WF tree) (x : Key) (p : List Nat)
    (hp : p ∈ get_parent_paths tree x) (i : Nat) (hi : i ∈ p) :
    (getNode tree i).item ∈ tree.routes.map Prod.fst := by
  have hne := get_parent_paths_items tree x p hp i hi
  by_cases hlt : i < tree.nodes.length
  · have h0 : 1 ≤ i := by
      rcases Nat.eq_zero_or_pos i with h | h
      · subst h
        exact absurd hwf.1.2.1 hne
      · exact h
    exact hwf.1.2.2.2.2.2 i (List.mem_range.mpr hlt) h0
  · exfalso
    rw [getNode_oob tree i (Nat.le_of_not_lt hlt)] at hne
    exact hne rfl

/-- The conditional tree's route items all come from the parent tree's route
table. -/
theorem condTreeOf_keys (tree : fp_tree) (hwf : WF tree) (x : Key) (z : Key)
    (hz : z ∈ (condTreeOf tree x).routes.map Prod.fst) :
    z ∈ tree.routes.map Prod.fst := by
  rw [condTreeOf, propagateCounts_routes] at hz
  rcases buildCondTree_keys tree (get_parent_paths tree x) (fpTreeNew, none) z hz
    with h1 | ⟨p, hp1, i, hi1, hi2⟩
  · simp [fpTreeNew] at h1
  · rw [← hi2]
    exact path_item_key tree hwf x p hp1 i hi1

theorem measure_lt (tree : fp_tree) (hwf : WF tree) (x : Key) (suffix : List Key)
    (hx : x ∈ tree.routes.map Prod.fst) (hxs : x ∉ suffix) :
    measureT (condTreeOf tree x) (x :: suffix) < measureT tree suffix := by
  unfold measureT
  have hsub : ((condTreeOf tree x).routes.map Prod.fst).toFinset \ (x :: suffix).toFinset
      ⊆ ((tree.routes.map Prod.fst).toFinset \ suffix.toFinset).erase x := by
    intro z hz
    rw [Finset.mem_sdiff] at hz
    rw [Finset.mem_erase, Finset.mem_sdiff]
    rw [List.toFinset_cons, Finset.mem_insert] at hz
    refine ⟨fun he => hz.2 (Or.inl he), ?_, fun hs => hz.2 (Or.inr hs)⟩
    exact List.mem_toFinset.mpr
      (condTreeOf_keys tree hwf x z (List.mem_toFinset.mp hz.1))
  have hxin : x ∈ (tree.routes.map Prod.fst).toFinset \ suffix.toFinset := by
    rw [Finset.mem_sdiff]
    exact ⟨List.mem_toFinset.mpr hx, fun h => hxs (List.mem_toFinset.mp h)⟩
  calc (((condTreeOf tree x).routes.map Prod.fst).toFinset \ (x :: suffix).toFinset).card
      ≤ (((tree.routes.map Prod.fst).toFinset \ suffix.toFinset).erase x).card :=
        Finset.card_le_card hsub
    _ < ((tree.routes.map Prod.fst).toFinset \ suffix.toFinset).card :=
        Finset.card_erase_lt_of_mem hxin

theorem condLevel_ext (minsup : Nat) (tree : fp_tree) (retr : List Key)
    (rec1 rec2 : fp_tree → List Key → List (List Key × Nat)) :
    ∀ pending, (∀ x ∈ pending, x ∉ retr →
        rec1 (condTreeOf tree x) (x :: retr) = rec2 (condTreeOf tree x) (x :: retr)) →
      condLevel minsup rec1 tree retr pending
        = condLevel minsup rec2 tree retr pending := by
  intro pending
  induction pending with
  | nil => intro _; rfl
  | cons x xs ihp =>
    intro h
    have htail := ihp (fun z hz => h z (List.mem_cons_of_mem _ hz))
    rw [condLevel, condLevel, htail]
    by_cases hc : supportOf tree (get_nodes tree x) < minsup ∨ x ∈ retr
    · rw [if_pos hc, if_pos hc]
    · rw [if_neg hc, if_neg hc]
      show (x :: retr, supportOf tree (get_nodes tree x)) ::
          (rec1 (condTreeOf tree x) (x :: retr) ++ condLevel minsup rec2 tree retr xs)
        = (x :: retr, supportOf tree (get_nodes tree x)) ::
          (rec2 (condTreeOf tree x) (x :: retr) ++ condLevel minsup rec2 tree retr xs)
      rw [h x (List.mem_cons_self _ _) (fun hm => hc (Or.inr hm))]

/-- Fuel-indifference of the miner: any fuel beyond the number of distinct
route items outside the suffix yields the same result. -/
theorem condDB_stable (minsup : Nat) :
    ∀ (f : Nat) (tree : fp_tree) (suffix : List Key), WF tree →
      measureT tree suffix < f →
      conditional_db minsup f tree suffix
        = conditional_db minsup (measureT tree suffix + 1) tree suffix := by
  intro f
  induction f using Nat.strong_induction_on with
  | _ f ihf =>
    intro tree suffix hwf hm
    obtain ⟨g, rfl⟩ : ∃ g, f = g + 1 := ⟨f - 1, by omega⟩
    rw [conditional_db, conditional_db]
    apply condLevel_ext
    intro x hx hxr
    have hm2 : measureT (condTreeOf tree x) (x :: suffix) < measureT tree suffix :=
      measure_lt tree hwf x suffix hx hxr
    have hwf2 : WF (condTreeOf tree x) := condTreeOf_WF tree x
    rw [ihf g (by omega) _ _ hwf2 (by omega),
      ihf (measureT tree suffix) (by omega) _ _ hwf2 hm2]

/-- C5 amended.  The mining recursion terminates with depth bounded by the
number of distinct route-table items: modelling the recursion with fuel,
every fuel beyond the number of distinct route items not in the suffix
produces the same result (so the unbounded Python recursion bottoms out
within that depth), and that number is at most the route-table size.  The
reason is not the one the claim states: each recursive call extends the
retrieved suffix by a route item not yet in it, while the conditional tree's
item universe never exceeds the parent's, so the measure strictly shrinks —
the expanded item itself remains in the conditional tree and is skipped by
the `retrieved_list` guard. -/
theorem conditional_db_terminates (minsup : Nat) (tree : fp_tree) (suffix : List Key)
    (hwf : WF tree) (f1 f2 : Nat)
    (h1 : measureT tree suffix < f1) (h2 : measureT tree suffix < f2) :
    conditional_db minsup f1 tree suffix = conditional_db minsup f2 tree suffix ∧
    measureT tree suffix ≤ tree.routes.length := by
  constructor
  · rw [condDB_stable minsup f1 tree suffix hwf h1,
      condDB_stable minsup f2 tree suffix hwf h2]
  · calc measureT tree suffix
        ≤ (tree.routes.map Prod.fst).toFinset.card :=
          Finset.card_le_card Finset.sdiff_subset
      _ ≤ (tree.routes.map Prod.fst).length := List.toFinset_card_le _
      _ = tree.routes.length := List.length_map _ _

/-- Witness for C5 amended: the tree of transaction `[0,1]` mined with fuels
3 and 5 gives the same result, and the measure is within the route-table
size. -/
theorem conditional_db_terminates_witness :
    conditional_db 1 3 (append_items fpTreeNew [0, 1]) []
        = conditional_db 1 5 (append_items fpTreeNew [0, 1]) [] ∧
    measureT (append_items fpTreeNew [0, 1]) []
      ≤ (append_items fpTreeNew [0, 1]).routes.length :=
  conditional_db_terminates 1 (append_items fpTreeNew [0, 1]) []
    (by unfold WF chainsWF linksWF; decide) 3 5 (by decide) (by decide)

/-! ## The shape of a tree built from a single transaction, and walks along it -/

/-- Appending a transaction under an open end of the tree (the pointer is the
last arena node and has no children) lays the items out as a fresh linear
path: one node per item, counts 1, each hanging off its predecessor. -/
theorem appendGo_line :
    ∀ (rest : List Nat) (t : fp_tree) (ptr : Nat),
      t.nodes.length = ptr + 1 → (getNode t ptr).children = [] →
      (appendGo t ptr rest).nodes.length = ptr + 1 + rest.length ∧
      (∀ i, i < ptr →
        (getNode (appendGo t ptr rest) i).item = (getNode t i).item ∧
        (getNode (appendGo t ptr rest) i).count = (getNode t i).count ∧
        (getNode (appendGo t ptr rest) i).parent = (getNode t i).parent ∧
        (getNode (appendGo t ptr rest) i).children = (getNode t i).children) ∧
      ((getNode (appendGo t ptr rest) ptr).item = (getNode t ptr).item ∧
       (getNode (appendGo t ptr rest) ptr).count = (getNode t ptr).count ∧
       (getNode (appendGo t ptr rest) ptr).parent = (getNode t ptr).parent) ∧
      (∀ k, k ≤ rest.length →
        (getNode (appendGo t ptr rest) (ptr + k)).children
          = if h2 : k < rest.length then [(some (rest.get ⟨k, h2⟩), ptr + k + 1)]
            else []) ∧
      (∀ j, (hj : j < rest.length) →
        (getNode (appendGo t ptr rest) (ptr + 1 + j)).item = some (rest.get ⟨j, hj⟩) ∧
        (getNode (appendGo t ptr rest) (ptr + 1 + j)).count = 1 ∧
        (getNode (appendGo t ptr rest) (ptr + 1 + j)).parent = some (ptr + j)) := by
  intro rest
  induction rest with
  | nil =>
    intro t ptr hlen hch
    refine ⟨by rw [appendGo, hlen]; simp, ?_, ⟨rfl, rfl, rfl⟩, ?_, ?_⟩
    · intro i _
      exact ⟨rfl, rfl, rfl, rfl⟩
    · intro k hk
      have hk0 : k = 0 := by simpa using hk
      subst hk0
      rw [dif_neg (by simp)]
      simpa using hch
    · intro j hj
      simp at hj
  | cons x rest ih =>
    intro t ptr hlen hch
    have hptr : ptr < t.nodes.length := by omega
    have hfind : find t ptr (some x) = none := by
      rw [find, hch]
      rfl
    obtain ⟨hlen3, hfields, hitn, hcn, hpn, hcho, hchp, hchn⟩ :=
      linkNewNode_fields t ptr (some x) 1 hptr hfind
    have hstep : appendGo t ptr (x :: rest)
        = appendGo (linkNewNode t ptr (some x) 1).1 (linkNewNode t ptr (some x) 1).2
            rest := by
      rw [appendGo, hfind]
    have hidx : (linkNewNode t ptr (some x) 1).2 = ptr + 1 := by
      rw [linkNewNode_idx, hlen]
    have hlen2 : (linkNewNode t ptr (some x) 1).1.nodes.length = (ptr + 1) + 1 := by
      rw [hlen3, hlen]
    have hch2 : (getNode (linkNewNode t ptr (some x) 1).1 (ptr + 1)).children = [] := by
      rw [← hlen]
      exact hchn
    obtain ⟨ja, jb, jc, jd, je⟩ := ih (linkNewNode t ptr (some x) 1).1 (ptr + 1) hlen2 hch2
    rw [hstep, hidx]
    have hnlen : t.nodes.length = ptr + 1 := hlen
    refine ⟨by rw [ja]; simp; omega, ?_, ?_, ?_, ?_⟩
    · intro i hi
      obtain ⟨b1, b2, b3, b4⟩ := jb i (by omega)
      have hfi := hfields i (by omega)
      refine ⟨?_, ?_, ?_, ?_⟩
      · rw [b1, hfi.1]
      · rw [b2, hfi.2.1]
      · rw [b3, hfi.2.2]
      · rw [b4, hcho i (by omega) (by omega)]
    · obtain ⟨b1, b2, b3, _⟩ := jb ptr (by omega)
      have hfi := hfields ptr (by omega)
      exact ⟨by rw [b1, hfi.1], by rw [b2, hfi.2.1], by rw [b3, hfi.2.2]⟩
    · intro k hk
      by_cases hk0 : k = 0
      · subst hk0
        obtain ⟨_, _, _, b4⟩ := jb ptr (by omega)
        have hz : ptr + 0 = ptr := rfl
        rw [hz, b4, hchp, hch]
        rw [dif_pos (by simp)]
        show [(some x, t.nodes.length)] = [(some ((x :: rest).get ⟨0, by simp⟩), ptr + 0 + 1)]
        rw [hnlen]
        rfl
      · obtain ⟨k2, rfl⟩ : ∃ k2, k = k2 + 1 := ⟨k - 1, by omega⟩
        have hk2 : k2 ≤ rest.length := by simpa using hk
        have hjd := jd k2 hk2
        have harith : ptr + 1 + k2 = ptr + (k2 + 1) := by omega
        rw [harith] at hjd
        rw [hjd]
        by_cases h2 : k2 < rest.length
        · have hsucc : k2 + 1 < (x :: rest).length := by
            simpa using Nat.succ_lt_succ h2
          rw [dif_pos h2, dif_pos hsucc]
          rfl
        · rw [dif_neg h2,
            dif_neg (by simpa using fun hc => h2 (Nat.lt_of_succ_lt_succ hc))]
    · intro j hj
      by_cases hj0 : j = 0
      · subst hj0
        obtain ⟨b1, b2, b3⟩ := jc
        have hz : ptr + 1 + 0 = ptr + 1 := rfl
        refine ⟨?_, ?_, ?_⟩
        · rw [hz, b1, ← hnlen, hitn]
          rfl
        · rw [hz, b2, ← hnlen, hcn]
        · rw [hz, b3, ← hnlen, hpn]
          rfl
      · obtain ⟨j2, rfl⟩ : ∃ j2, j = j2 + 1 := ⟨j - 1, by omega⟩
        have hj2 : j2 < rest.length := by simpa using hj
        obtain ⟨b1, b2, b3⟩ := je j2 hj2
        have harith : ptr + 1 + (j2 + 1) = ptr + 1 + 1 + j2 := by omega
        rw [harith]
        refine ⟨?_, b2, ?_⟩
        · rw [b1]
          rfl
        · rw [b3]
          congr 1
          omega

/-- Walking an existing path: when `find` succeeds at every step of `q`, the
append only increments the counts of the nodes `base+1 … base+q.length` and
then continues with the remaining items from the path's end. -/
theorem appendGo_walk :
    ∀ (q l2 : List Nat) (t : fp_tree) (base : Nat),
      (∀ j, (hj : j < q.length) →
        find t (base + j) (some (q.get ⟨j, hj⟩)) = some (base + j + 1)) →
      (∀ j, j < q.length → base + j + 1 < t.nodes.length) →
      ∃ t', appendGo t base (q ++ l2) = appendGo t' (base + q.length) l2 ∧
        t'.nodes.length = t.nodes.length ∧ t'.routes = t.routes ∧
        (∀ i, (getNode t' i).item = (getNode t i).item ∧
          (getNode t' i).parent = (getNode t i).parent ∧
          (getNode t' i).children = (getNode t i).children ∧
          (getNode t' i).adjacent_item = (getNode t i).adjacent_item) ∧
        (∀ i, (getNode t' i).count
          = (getNode t i).count + if base + 1 ≤ i ∧ i ≤ base + q.length then 1 else 0) := by
  intro q
  induction q with
  | nil =>
    intro l2 t base _ _
    refine ⟨t, by simp only [List.nil_append, List.length_nil, Nat.add_zero], rfl, rfl,
      fun i => ⟨rfl, rfl, rfl, rfl⟩, ?_⟩
    intro i
    simp only [List.length_nil]
    rw [if_neg (by omega), Nat.add_zero]
  | cons x q ih =>
    intro l2 t base hfind hbound
    have hf0 : find t base (some x) = some (base + 1) := by
      have := hfind 0 (by simp)
      simpa using this
    have hstep : appendGo t base ((x :: q) ++ l2)
        = appendGo (setNode t (base + 1)
            (fun n => { n with count := n.count + 1 })) (base + 1) (q ++ l2) := by
      rw [List.cons_append, appendGo, hf0]
    have hb1 : base + 1 < t.nodes.length := by
      have := hbound 0 (by simp)
      simpa using this
    have hfind2 : ∀ j, (hj : j < q.length) →
        find (setNode t (base + 1) (fun n => { n with count := n.count + 1 }))
          (base + 1 + j) (some (q.get ⟨j, hj⟩)) = some (base + 1 + j + 1) := by
      intro j hj
      have hchsame : ∀ i, (getNode (setNode t (base + 1)
          (fun n => { n with count := n.count + 1 })) i).children
          = (getNode t i).children := by
        intro i
        rw [getNode_setNode]
        split_ifs <;> rfl
      rw [find, hchsame]
      have := hfind (j + 1) (by simpa using Nat.succ_lt_succ hj)
      rw [find] at this
      have harith : base + (j + 1) = base + 1 + j := by omega
      rw [harith] at this
      have hg : (x :: q).get ⟨j + 1, by simpa using Nat.succ_lt_succ hj⟩
          = q.get ⟨j, hj⟩ := rfl
      rw [hg] at this
      rw [this]
    have hbound2 : ∀ j, j < q.length →
        base + 1 + j + 1 < (setNode t (base + 1)
          (fun n => { n with count := n.count + 1 })).nodes.length := by
      intro j hj
      rw [length_setNode]
      have := hbound (j + 1) (by simpa using Nat.succ_lt_succ hj)
      omega
    obtain ⟨t', he, hlen, hroutes, hfields, hcounts⟩ :=
      ih l2 (setNode t (base + 1) (fun n => { n with count := n.count + 1 }))
        (base + 1) hfind2 hbound2
    refine ⟨t', ?_, ?_, ?_, ?_, ?_⟩
    · rw [hstep, he]
      have hA : base + (x :: q).length = base + 1 + q.length := by
        simp only [List.length_cons]
        omega
      rw [hA]
    · rw [hlen, length_setNode]
    · rw [hroutes, routes_setNode]
    · intro i
      obtain ⟨f1, f2, f3, f4⟩ := hfields i
      rw [f1, f2, f3, f4, getNode_setNode]
      split_ifs <;> exact ⟨rfl, rfl, rfl, rfl⟩
    · intro i
      rw [hcounts i, getNode_setNode]
      simp only [List.length_cons]
      by_cases hieq : i = base + 1
      · subst hieq
        rw [if_pos ⟨rfl, hb1⟩]
        show (getNode t (base + 1)).count + 1 + _ = _
        rw [if_neg (by omega), if_pos (by omega)]
      · rw [if_neg (by intro hc; exact hieq hc.1)]
        by_cases hin : base + 1 + 1 ≤ i ∧ i ≤ base + 1 + q.length
        · rw [if_pos hin, if_pos (by omega)]
        · rw [if_neg hin, if_neg (by omega)]

/-- In a well-formed tree the walking loop only moves to strictly larger
indices, so the item, count and parent of every node at or below the current
pointer are untouched by the rest of the insertion. -/
theorem appendGo_low : ∀ (l : List Nat) (t : fp_tree) (ptr : Nat),
    WF t → ptr < t.nodes.length → ∀ i, i ≤ ptr →
      (getNode (appendGo t ptr l) i).item = (getNode t i).item ∧
      (getNode (appendGo t ptr l) i).count = (getNode t i).count ∧
      (getNode (appendGo t ptr l) i).parent = (getNode t i).parent := by
  intro l
  induction l with
  | nil => intro t ptr _ _ i _; exact ⟨rfl, rfl, rfl⟩
  | cons x rest ih =>
    intro t ptr hwf hptr i hi
    rw [appendGo]
    cases hf : find t ptr (some x) with
    | some nxt =>
      obtain ⟨q1, q2, _⟩ := find_some_facts t ptr (some x) nxt hwf hptr hf
      have hwf2 : WF (setNode t nxt (fun n => { n with count := n.count + 1 })) :=
        setNode_pres_WF t nxt _ (fun n => ⟨rfl, rfl, rfl, rfl⟩) hwf
      have hlt2 : nxt < (setNode t nxt
          (fun n => { n with count := n.count + 1 })).nodes.length := by
        rw [length_setNode]; exact q2
      obtain ⟨r1, r2, r3⟩ := ih _ nxt hwf2 hlt2 i (by omega)
      have hsame : getNode (setNode t nxt
          (fun n => { n with count := n.count + 1 })) i = getNode t i :=
        getNode_setNode_ne t nxt i _ (by omega)
      rw [r1, r2, r3, hsame]
      exact ⟨rfl, rfl, rfl⟩
    | none =>
      have hwf2 : WF (linkNewNode t ptr (some x) 1).1 :=
        linkNewNode_WF t ptr (some x) 1 hwf hptr (by intro hc; cases hc) hf
      obtain ⟨hL1, hLlow, _⟩ := linkNewNode_fields t ptr (some x) 1 hptr hf
      have hlt2 : (linkNewNode t ptr (some x) 1).2
          < (linkNewNode t ptr (some x) 1).1.nodes.length := by
        rw [linkNewNode_idx, hL1]; omega
      obtain ⟨r1, r2, r3⟩ := ih _ _ hwf2 hlt2 i (by rw [linkNewNode_idx]; omega)
      obtain ⟨s1, s2, s3⟩ := hLlow i (by omega)
      rw [r1, r2, r3, s1, s2, s3]
      exact ⟨rfl, rfl, rfl⟩

/-- C7.  Route-table completeness and order, for the tree built from any
sequence of `append_items` calls on a fresh tree: route keys are distinct
(each item has exactly one route entry); for every item, `get_nodes`
enumerates exactly the arena's non-root nodes carrying that item, in
increasing arena-index order — which is the order the nodes were created,
since nodes are only ever appended; an item has a route entry exactly when
some non-root node carries it; and every non-root node is linked into the
tree through a smaller-index parent listing it as a child, so the enumerated
nodes are exactly the nodes reachable from the root. -/
theorem route_table_complete (txns : List (List Nat)) :
    ((txns.foldl append_items fpTreeNew).routes.map Prod.fst).Nodup ∧
    (∀ x : Key, get_nodes (txns.foldl append_items fpTreeNew) x
        = itemsAt (txns.foldl append_items fpTreeNew) x) ∧
    (∀ x : Key, x ∈ (txns.foldl append_items fpTreeNew).routes.map Prod.fst
        ↔ itemsAt (txns.foldl append_items fpTreeNew) x ≠ []) ∧
    (∀ i, 1 ≤ i → i < (txns.foldl append_items fpTreeNew).nodes.length →
        ∃ p, p < i ∧
          ((getNode (txns.foldl append_items fpTreeNew) i).parent = some p ∧
            ((getNode (txns.foldl append_items fpTreeNew) i).item, i)
              ∈ (getNode (txns.foldl append_items fpTreeNew) p).children)) := by
  have hwf := build_WF txns
  refine ⟨hwf.1.2.2.2.1, get_nodes_eq _ hwf, key_mem_iff _ hwf, ?_⟩
  intro i h1i hilt
  obtain ⟨p, hp1, hp2, hp3⟩ := hwf.2.2.2 i (List.mem_range.mpr hilt) h1i
  exact ⟨p, List.mem_range.mp hp1, hp2, hp3⟩

/-- Witness for C7 at a concrete input (two transactions sharing an item):
the implications in the statement are discharged at item 0 and node 2. -/
theorem route_table_complete_witness :
    get_nodes ([[0, 1], [0]].foldl append_items fpTreeNew) (some 0)
        = itemsAt ([[0, 1], [0]].foldl append_items fpTreeNew) (some 0) ∧
    (some 0 ∈ ([[0, 1], [0]].foldl append_items fpTreeNew).routes.map Prod.fst) ∧
    ∃ p, p < 2 ∧
      ((getNode ([[0, 1], [0]].foldl append_items fpTreeNew) 2).parent = some p ∧
        ((getNode ([[0, 1], [0]].foldl append_items fpTreeNew) 2).item, 2)
          ∈ (getNode ([[0, 1], [0]].foldl append_items fpTreeNew) p).children) := by
  refine ⟨(route_table_complete [[0, 1], [0]]).2.1 (some 0), ?_, ?_⟩
  · exact ((route_table_complete [[0, 1], [0]]).2.2.1 (some 0)).mpr (by decide)
  · exact (route_table_complete [[0, 1], [0]]).2.2.2 2 (by decide) (by decide)

/-- C8.  Tree sharing: two transactions with the common normalized prefix `p`
(continued by `r` and by `s` respectively) share the nodes of that prefix.
After both insertions into a fresh tree, node `k + 1` carries item `p[k]`,
count `2` and parent `k` for every position `k` of the prefix — the counts
accumulate on one shared chain.  In particular inserting the identical
transaction `p` twice allocates exactly `p.length` non-root nodes in total:
one root-to-leaf path with count `2` everywhere, not two separate paths. -/
theorem tree_sharing (p r s : List Nat) (k : Nat) (hk : k < p.length) :
    (getNode (append_items (append_items fpTreeNew (p ++ r)) (p ++ s)) (k + 1)).item
        = some (p.get ⟨k, hk⟩) ∧
    (getNode (append_items (append_items fpTreeNew (p ++ r)) (p ++ s)) (k + 1)).count
        = 2 ∧
    (getNode (append_items (append_items fpTreeNew (p ++ r)) (p ++ s)) (k + 1)).parent
        = some k ∧
    (append_items (append_items fpTreeNew p) p).nodes.length = p.length + 1 := by
  have key : ∀ (u v : List Nat), ∃ t2,
      append_items (append_items fpTreeNew (p ++ u)) (p ++ v)
        = appendGo t2 p.length v ∧
      t2.nodes.length = 1 + (p ++ u).length ∧ WF t2 ∧
      (∀ m, (hm : m < p.length) →
        (getNode t2 (m + 1)).item = some (p.get ⟨m, hm⟩) ∧
        (getNode t2 (m + 1)).count = 2 ∧
        (getNode t2 (m + 1)).parent = some m) := by
    intro u v
    obtain ⟨L1, _, _, Lch, Litems⟩ := appendGo_line (p ++ u) fpTreeNew 0 rfl rfl
    have e1 : append_items fpTreeNew (p ++ u) = appendGo fpTreeNew 0 (p ++ u) := rfl
    have hfind : ∀ j, (hj : j < p.length) →
        find (append_items fpTreeNew (p ++ u)) (0 + j) (some (p.get ⟨j, hj⟩))
          = some (0 + j + 1) := by
      intro j hj
      have hjlen : j < (p ++ u).length := by
        rw [List.length_append]; omega
      have hc := Lch j (Nat.le_of_lt hjlen)
      rw [dif_pos hjlen] at hc
      have hgp : (p ++ u).get ⟨j, hjlen⟩ = p.get ⟨j, hj⟩ := by
        simp [List.get_eq_getElem, List.getElem_append_left hj]
      rw [find, e1, hc, hgp]
      simp [List.lookup]
    have hbound : ∀ j, j < p.length →
        0 + j + 1 < (append_items fpTreeNew (p ++ u)).nodes.length := by
      intro j hj
      rw [e1, L1, List.length_append]
      omega
    obtain ⟨t2, he, hlen2, hroutes2, hfields2, hcounts2⟩ :=
      appendGo_walk p v (append_items fpTreeNew (p ++ u)) 0 hfind hbound
    refine ⟨t2, ?_, ?_, ?_, ?_⟩
    · show appendGo (append_items fpTreeNew (p ++ u)) 0 (p ++ v)
        = appendGo t2 p.length v
      rw [he, Nat.zero_add]
    · rw [hlen2, e1, L1]
    · exact WF_congr _ t2 hlen2 hroutes2
        (fun i => (hfields2 i).1) (fun i => (hfields2 i).2.2.2)
        (fun i => (hfields2 i).2.2.1) (fun i => (hfields2 i).2.1)
        (append_items_WF _ _ fpTreeNew_WF)
    · intro m hm
      have hmlen : m < (p ++ u).length := by
        rw [List.length_append]; omega
      obtain ⟨i1, i2, i3⟩ := Litems m hmlen
      have hidx : 0 + 1 + m = m + 1 := by omega
      rw [hidx] at i1 i2 i3
      rw [Nat.zero_add] at i3
      have hgp : (p ++ u).get ⟨m, hmlen⟩ = p.get ⟨m, hm⟩ := by
        simp [List.get_eq_getElem, List.getElem_append_left hm]
      rw [hgp] at i1
      obtain ⟨f1, f2, _, _⟩ := hfields2 (m + 1)
      rw [e1] at f1 f2
      have hcnt := hcounts2 (m + 1)
      rw [if_pos (by omega)] at hcnt
      rw [e1] at hcnt
      rw [i2] at hcnt
      exact ⟨by rw [f1, i1], hcnt, by rw [f2, i3]⟩
  obtain ⟨t2, he2, hlen2, hwf2, hprops⟩ := key r s
  have hplt : p.length < t2.nodes.length := by
    rw [hlen2, List.length_append]
    omega
  obtain ⟨a1, a2, a3⟩ := appendGo_low s t2 p.length hwf2 hplt (k + 1) (by omega)
  obtain ⟨p1, p2, p3⟩ := hprops k hk
  obtain ⟨t0, he0, hlen0, _, _⟩ := key [] []
  rw [List.append_nil] at he0 hlen0
  have ht0 : appendGo t0 p.length ([] : List Nat) = t0 := rfl
  rw [ht0] at he0
  refine ⟨?_, ?_, ?_, ?_⟩
  · rw [he2, a1, p1]
  · rw [he2, a2, p2]
  · rw [he2, a3, p3]
  · rw [he0, hlen0]
    omega

/-- Witness for C8: inserting `[5, 7]` and then `[5, 9]` leaves the shared
node for item 5 with count 2 under the root, and inserting `[5]` twice
yields a two-node arena — one path, not two. -/
theorem tree_sharing_witness :
    (getNode (append_items (append_items fpTreeNew ([5] ++ [7])) ([5] ++ [9]))
        (0 + 1)).item = some 5 ∧
    (getNode (append_items (append_items fpTreeNew ([5] ++ [7])) ([5] ++ [9]))
        (0 + 1)).count = 2 ∧
    (getNode (append_items (append_items fpTreeNew ([5] ++ [7])) ([5] ++ [9]))
        (0 + 1)).parent = some 0 ∧
    (append_items (append_items fpTreeNew [5]) [5]).nodes.length = [5].length + 1 :=
  tree_sharing [5] [7] [9] 0 (by decide)

end FPG
